import Mathlib

/-!
Verification of the onekey Translation State & Synchronization Engine.

Shallow embedding of the program's data model and operations:
* `touch`, `isStale`, `diffState` from `src/state.ts`,
* `syncState`'s state-mutation pipeline from `src/index.ts`,
* the AI translation orchestrator's event trace
  (`translate` in `src/translate.ts` followed by `saveAiTranslations`).

JavaScript `Record<string, T>` objects are modelled as insertion-ordered
association lists without duplicate keys (`object[k] = v` replaces the
first matching slot or appends; `delete object[k]` removes the slot;
lookup takes the first matching slot).  Timestamps (`Date` values, stored
via `toISOString()` and compared after re-parsing) are modelled as `Nat`:
the ISO round-trip is order-preserving, so `new Date(a) > new Date(b)`
becomes `>` on `Nat`.
-/

namespace OneKey

/-- `KeyMeta` from state.ts: `{ current?: string, lastModified: string }`. -/
structure KeyMeta where
  lastModified : Nat
  current : Option String
deriving Repr, DecidableEq

/-- One element of `State.locales`:
`{ code, englishName, localName, keys: Record<string, KeyMeta> }`. -/
structure LocaleEntry where
  code : String
  englishName : String
  localName : String
  keys : List (String × KeyMeta)
deriving Repr, DecidableEq

/-- The persisted `State` document from state.ts. -/
structure State where
  version : String
  baseLocale : String
  translationsPath : String
  generateKeys : Bool
  locales : List LocaleEntry
deriving Repr, DecidableEq

/-- An entry of `language-codes.json` (looked up by `touch` and `syncState`
for display names). -/
structure LanguageCode where
  code : String
  englishName : String
  localName : String
deriving Repr, DecidableEq

/-- JS object read `keys[key]`: first slot with the given key. -/
def lookupKey (keys : List (String × KeyMeta)) (k : String) : Option KeyMeta :=
  (keys.find? (fun p => p.1 == k)).map Prod.snd

/-- JS object write `keys[key] = m`: replace the first slot with the given
key, or append a new slot. -/
def setKey : List (String × KeyMeta) → String → KeyMeta → List (String × KeyMeta)
  | [], k, m => [(k, m)]
  | (k', m') :: rest, k, m =>
      if k' == k then (k, m) :: rest else (k', m') :: setKey rest k m

/-- Mutation of the first locale entry with the given code
(`state.locales.find(...)` returns a live reference in JS). -/
def updateFirstLocale : List LocaleEntry → String → (LocaleEntry → LocaleEntry) → List LocaleEntry
  | [], _, _ => []
  | e :: rest, code, f =>
      if e.code == code then f e :: rest else e :: updateFirstLocale rest code f

/-- The body of `touch` once the locale entry is found (state.ts lines
274–296): insert the key if absent; if a value is supplied and differs from
the stored `current`, update value and timestamp; if no value is supplied,
only bump the timestamp; otherwise leave the entry untouched. -/
def touchEntry (key : String) (date : Nat) (current : Option String) (e : LocaleEntry) :
    LocaleEntry :=
  match lookupKey e.keys key with
  | none => { e with keys := setKey e.keys key { lastModified := date, current := current } }
  | some existingMeta =>
      match current with
      | some c =>
          if existingMeta.current ≠ some c then
            { e with keys := setKey e.keys key { lastModified := date, current := some c } }
          else e
      | none =>
          { e with keys := setKey e.keys key { existingMeta with lastModified := date } }

/-- `touch` from state.ts: upserts the locale entry (pushing a new one with
display names looked up in `language-codes.json`, modelled by the `langs`
parameter) and the key metadata. -/
def touch (langs : List LanguageCode) (s : State) (locale key : String)
    (date : Nat) (current : Option String) : State :=
  match s.locales.find? (fun loc => loc.code == locale) with
  | none =>
      { s with locales := s.locales ++
          [{ code := locale
             englishName := ((langs.find? (fun l => l.code == locale)).map
               (fun l => l.englishName)).getD ""
             localName := ((langs.find? (fun l => l.code == locale)).map
               (fun l => l.localName)).getD ""
             keys := [(key, { lastModified := date, current := current })] }] }
  | some _ =>
      { s with locales := updateFirstLocale s.locales locale (touchEntry key date current) }

/-- Metadata stored for `(locale, key)` (lookup through the first matching
locale entry, as `state.locales.find(...)?.keys[key]` does). -/
def metaOf (s : State) (locale key : String) : Option KeyMeta :=
  (s.locales.find? (fun loc => loc.code == locale)).bind (fun e => lookupKey e.keys key)

/-- `isStale` from state.ts. -/
def isStale (s : State) (baseLocale locale key : String) : Bool :=
  match metaOf s baseLocale key with
  | none => false
  | some baseEntry =>
      match metaOf s locale key with
      | none => true
      | some localeEntry => decide (localeEntry.lastModified < baseEntry.lastModified)

/-- One record emitted by `diffState`; `localeTs = none` is the `"missing"`
sentinel. -/
structure DiffEntry where
  locale : String
  key : String
  baseTs : Nat
  localeTs : Option Nat
deriving Repr, DecidableEq

/-- `diffState` from state.ts. -/
def diffState (s : State) : List DiffEntry :=
  match s.locales.find? (fun loc => loc.code == s.baseLocale) with
  | none => []
  | some baseLocaleEntry =>
      s.locales.flatMap (fun localeEntry =>
        if localeEntry.code == s.baseLocale then []
        else
          baseLocaleEntry.keys.filterMap (fun km =>
            if isStale s s.baseLocale localeEntry.code km.1 then
              some { locale := localeEntry.code
                     key := km.1
                     baseTs := km.2.lastModified
                     localeTs := (lookupKey localeEntry.keys km.1).map
                       (fun m => m.lastModified) }
            else none))

/-! ### Basic lemmas about the association-list primitives -/

theorem lookupKey_cons_self (p : String × KeyMeta) (rest : List (String × KeyMeta))
    (k : String) (h : p.1 = k) : lookupKey (p :: rest) k = some p.2 := by
  simp [lookupKey, List.find?_cons, h]

theorem lookupKey_cons_ne (p : String × KeyMeta) (rest : List (String × KeyMeta))
    (k : String) (h : p.1 ≠ k) : lookupKey (p :: rest) k = lookupKey rest k := by
  simp [lookupKey, List.find?_cons, h]

theorem lookupKey_setKey_self (ks : List (String × KeyMeta)) (k : String) (m : KeyMeta) :
    lookupKey (setKey ks k m) k = some m := by
  induction ks with
  | nil => simp [setKey, lookupKey, List.find?_cons]
  | cons p rest ih =>
      by_cases h : p.1 = k
      · simp [setKey, h, lookupKey, List.find?_cons]
      · rw [setKey, if_neg (by simpa using h), lookupKey_cons_ne p _ k h]
        exact ih

theorem lookupKey_setKey_ne (ks : List (String × KeyMeta)) (k k' : String) (m : KeyMeta)
    (h : k' ≠ k) : lookupKey (setKey ks k m) k' = lookupKey ks k' := by
  induction ks with
  | nil =>
      rw [setKey, lookupKey_cons_ne (k, m) _ k' (Ne.symm h)]
  | cons p rest ih =>
      by_cases hp : p.1 = k
      · rw [setKey, if_pos (by simpa using hp)]
        rw [lookupKey_cons_ne (k, m) _ k' (Ne.symm h), lookupKey_cons_ne p _ k' (hp ▸ Ne.symm h)]
      · rw [setKey, if_neg (by simpa using hp)]
        by_cases hp' : p.1 = k'
        · rw [lookupKey_cons_self p _ k' hp', lookupKey_cons_self p _ k' hp']
        · rw [lookupKey_cons_ne p _ k' hp', lookupKey_cons_ne p _ k' hp']
          exact ih

theorem updateFirstLocale_of_find?_none (l : List LocaleEntry) (code : String)
    (f : LocaleEntry → LocaleEntry) (h : l.find? (fun e => e.code == code) = none) :
    updateFirstLocale l code f = l := by
  induction l with
  | nil => rfl
  | cons e rest ih =>
      rw [List.find?_cons] at h
      by_cases he : e.code = code
      · simp [he] at h
      · rw [updateFirstLocale, if_neg (by simpa using he)]
        have hrest : rest.find? (fun e => e.code == code) = none := by
          have hb : (e.code == code) = false := by simpa using he
          simpa [hb] using h
        rw [ih hrest]

theorem find?_eq_some_split (l : List LocaleEntry) (code : String) (e : LocaleEntry)
    (h : l.find? (fun x => x.code == code) = some e) :
    ∃ pre post, l = pre ++ e :: post ∧ (∀ x ∈ pre, x.code ≠ code) ∧ e.code = code ∧
      ∀ f, updateFirstLocale l code f = pre ++ f e :: post := by
  induction l with
  | nil => simp [List.find?] at h
  | cons x rest ih =>
      by_cases hx : x.code = code
      · have hxe : x = e := by
          have hb : (x.code == code) = true := by simpa using hx
          rw [List.find?_cons, hb] at h
          exact Option.some_inj.mp h
        refine ⟨[], rest, by simp [hxe], by simp, hxe ▸ hx, ?_⟩
        intro f
        rw [updateFirstLocale, if_pos (by simpa using hx), hxe]
        rfl
      · have hb : (x.code == code) = false := by simpa using hx
        have h' : rest.find? (fun x => x.code == code) = some e := by
          rw [List.find?_cons, hb] at h
          exact h
        obtain ⟨pre, post, hl, hpre, hcode, hupd⟩ := ih h'
        refine ⟨x :: pre, post, by simp [hl], ?_, hcode, ?_⟩
        · intro y hy
          rcases List.mem_cons.mp hy with rfl | hy
          · exact hx
          · exact hpre y hy
        · intro f
          rw [updateFirstLocale, if_neg (by simpa using hx), hupd f]
          rfl

theorem touchEntry_code (key : String) (d : Nat) (c : Option String) (e : LocaleEntry) :
    (touchEntry key d c e).code = e.code ∧
    (touchEntry key d c e).englishName = e.englishName ∧
    (touchEntry key d c e).localName = e.localName := by
  unfold touchEntry
  split
  · exact ⟨rfl, rfl, rfl⟩
  · split
    · split
      · exact ⟨rfl, rfl, rfl⟩
      · exact ⟨rfl, rfl, rfl⟩
    · exact ⟨rfl, rfl, rfl⟩

theorem touchEntry_lookup_ne (key : String) (d : Nat) (c : Option String) (e : LocaleEntry)
    (k : String) (hk : k ≠ key) :
    lookupKey (touchEntry key d c e).keys k = lookupKey e.keys k := by
  unfold touchEntry
  split
  · exact lookupKey_setKey_ne e.keys key k _ hk
  · split
    · split
      · exact lookupKey_setKey_ne e.keys key k _ hk
      · rfl
    · exact lookupKey_setKey_ne e.keys key k _ hk

theorem touchEntry_lookup_self (key : String) (d : Nat) (c : Option String) (e : LocaleEntry) :
    lookupKey (touchEntry key d c e).keys key =
      match lookupKey e.keys key, c with
      | none, _ => some { lastModified := d, current := c }
      | some m, some v =>
          if m.current ≠ some v then some { lastModified := d, current := some v } else some m
      | some m, none => some { m with lastModified := d } := by
  unfold touchEntry
  cases hm : lookupKey e.keys key with
  | none => exact lookupKey_setKey_self e.keys key _
  | some m =>
      cases c with
      | none => exact lookupKey_setKey_self e.keys key _
      | some v =>
          by_cases hv : m.current = some v
          · simp [hv, hm]
          · simp only [if_pos hv]
            exact lookupKey_setKey_self e.keys key _

theorem find?_append_left_none {α : Type} (l1 l2 : List α) (p : α → Bool)
    (h : l1.find? p = none) : (l1 ++ l2).find? p = l2.find? p := by
  rw [List.find?_append, h, Option.none_or]

/-- Effect of `touch` on the metadata stored for its own `(locale, key)` pair. -/
theorem metaOf_touch_self (langs : List LanguageCode) (s : State) (L K : String)
    (d : Nat) (c : Option String) :
    metaOf (touch langs s L K d c) L K =
      match metaOf s L K, c with
      | none, _ => some { lastModified := d, current := c }
      | some m, some v =>
          if m.current ≠ some v then some { lastModified := d, current := some v } else some m
      | some m, none => some { m with lastModified := d } := by
  unfold touch
  cases hfind : s.locales.find? (fun loc => loc.code == L) with
  | none =>
      have hs : metaOf s L K = none := by unfold metaOf; rw [hfind]; rfl
      rw [hs]
      unfold metaOf
      dsimp only
      rw [find?_append_left_none _ _ _ hfind]
      cases c <;> simp [lookupKey, List.find?_cons]
  | some e =>
      obtain ⟨pre, post, hl, hpre, hcode, hupd⟩ := find?_eq_some_split s.locales L e hfind
      have hs : metaOf s L K = lookupKey e.keys K := by
        unfold metaOf; rw [hfind]; rfl
      rw [hs]
      unfold metaOf
      dsimp only
      rw [hupd]
      have hprenone : pre.find? (fun loc => loc.code == L) = none :=
        List.find?_eq_none.mpr (fun x hx => by simpa using hpre x hx)
      rw [find?_append_left_none _ _ _ hprenone, List.find?_cons]
      have hc : ((touchEntry K d c e).code == L) = true := by
        simp [(touchEntry_code K d c e).1, hcode]
      rw [hc]
      exact touchEntry_lookup_self K d c e

/-- Frame effect of `touch`: any other `(locale, key)` pair keeps its metadata. -/
theorem metaOf_touch_frame (langs : List LanguageCode) (s : State) (L K : String)
    (d : Nat) (c : Option String) (L' k : String) (h : L' ≠ L ∨ k ≠ K) :
    metaOf (touch langs s L K d c) L' k = metaOf s L' k := by
  unfold touch
  cases hfind : s.locales.find? (fun loc => loc.code == L) with
  | none =>
      unfold metaOf
      dsimp only
      rw [List.find?_append]
      cases hL' : s.locales.find? (fun loc => loc.code == L') with
      | some e => rfl
      | none =>
          rw [Option.none_or]
          by_cases hLL : L' = L
          · subst hLL
            have hk : k ≠ K := h.resolve_left (fun hc => hc rfl)
            rw [List.find?_cons]
            simp only [beq_self_eq_true]
            show lookupKey [(K, { lastModified := d, current := c })] k = none
            rw [lookupKey_cons_ne _ _ _ (Ne.symm hk)]
            rfl
          · rw [List.find?_cons]
            simp only [show ((L : String) == L') = false by
              simpa using fun hc => hLL hc.symm]
            rfl
  | some e =>
      obtain ⟨pre, post, hl, hpre, hcode, hupd⟩ := find?_eq_some_split s.locales L e hfind
      unfold metaOf
      dsimp only
      rw [hupd]
      conv_rhs => rw [hl]
      rw [List.find?_append, List.find?_append]
      cases hp : pre.find? (fun loc => loc.code == L') with
      | some x => rfl
      | none =>
          rw [Option.none_or, Option.none_or, List.find?_cons, List.find?_cons]
          have hcodes : ((touchEntry K d c e).code == L') = (e.code == L') := by
            rw [(touchEntry_code K d c e).1]
          rw [hcodes]
          by_cases hec : e.code = L'
          · have hLL : L' = L := by rw [← hec, hcode]
            have hk : k ≠ K := h.resolve_left (fun hc => hc hLL)
            simp only [show (e.code == L') = true by simpa using hec]
            show lookupKey (touchEntry K d c e).keys k = lookupKey e.keys k
            exact touchEntry_lookup_ne K d c e k hk
          · simp only [show (e.code == L') = false by simpa using hec]

/-- Shape of the locale list after a `touch`: either a fresh entry is appended
or the first entry with the touched code is rewritten in place. -/
theorem touch_locales_cases (langs : List LanguageCode) (s : State) (L K : String)
    (d : Nat) (c : Option String) :
    (s.locales.find? (fun loc => loc.code == L) = none ∧
      ∃ newE, (touch langs s L K d c).locales = s.locales ++ [newE] ∧
        newE.keys = [(K, { lastModified := d, current := c })] ∧ newE.code = L) ∨
    (∃ e pre post, s.locales.find? (fun loc => loc.code == L) = some e ∧
      s.locales = pre ++ e :: post ∧ (∀ x ∈ pre, x.code ≠ L) ∧ e.code = L ∧
      (touch langs s L K d c).locales = pre ++ touchEntry K d c e :: post) := by
  unfold touch
  cases hfind : s.locales.find? (fun loc => loc.code == L) with
  | none =>
      exact Or.inl ⟨rfl, _, rfl, rfl, rfl⟩
  | some e =>
      obtain ⟨pre, post, hl, hpre, hcode, hupd⟩ := find?_eq_some_split s.locales L e hfind
      exact Or.inr ⟨e, pre, post, rfl, hl, hpre, hcode, by dsimp only; rw [hupd]⟩

/-- If a key is absent from every locale entry, touching a different key keeps
it absent from every locale entry. -/
theorem touch_preserves_absence (langs : List LanguageCode) (s : State) (L K : String)
    (d : Nat) (c : Option String) (kk : String) (hkk : kk ≠ K)
    (h : ∀ e ∈ s.locales, lookupKey e.keys kk = none) :
    ∀ e ∈ (touch langs s L K d c).locales, lookupKey e.keys kk = none := by
  rcases touch_locales_cases langs s L K d c with
    ⟨-, newE, hEq, hKeys, -⟩ | ⟨e, pre, post, -, hl, -, -, hEq⟩
  · intro x hx
    rw [hEq] at hx
    rcases List.mem_append.mp hx with hx | hx
    · exact h x hx
    · rcases List.mem_singleton.mp hx with rfl
      rw [hKeys, lookupKey_cons_ne _ _ _ (Ne.symm hkk)]
      rfl
  · intro x hx
    rw [hEq] at hx
    rcases List.mem_append.mp hx with hx | hx
    · exact h x (by rw [hl]; exact List.mem_append.mpr (Or.inl hx))
    · rcases List.mem_cons.mp hx with rfl | hx
      · rw [touchEntry_lookup_ne K d c e kk hkk]
        exact h e (by rw [hl]; exact List.mem_append.mpr (Or.inr (List.mem_cons_self e post)))
      · exact h x (by rw [hl]; exact List.mem_append.mpr (Or.inr (List.mem_cons_of_mem e hx)))

theorem touchEntry_lookup_self_isSome (key : String) (d : Nat) (c : Option String)
    (e : LocaleEntry) : (lookupKey (touchEntry key d c e).keys key).isSome = true := by
  rw [touchEntry_lookup_self]
  cases lookupKey e.keys key with
  | none => rfl
  | some m =>
      cases c with
      | none => rfl
      | some v =>
          by_cases h : m.current = some v
          · simp [h]
          · simp [h]

theorem touch_scalar_fields (langs : List LanguageCode) (s : State) (L K : String)
    (d : Nat) (c : Option String) :
    (touch langs s L K d c).version = s.version ∧
    (touch langs s L K d c).baseLocale = s.baseLocale ∧
    (touch langs s L K d c).translationsPath = s.translationsPath ∧
    (touch langs s L K d c).generateKeys = s.generateKeys := by
  unfold touch
  cases s.locales.find? (fun loc => loc.code == L) <;> exact ⟨rfl, rfl, rfl, rfl⟩

/-- Concrete state fixture: base locale "en" tracked with one key
`main.k` cached as value "v" at time 5. -/
def sampleStateV : State :=
  { version := "0", baseLocale := "en", translationsPath := "translations",
    generateKeys := true,
    locales := [{ code := "en", englishName := "English", localName := "English",
                  keys := [("main.k", { lastModified := 5, current := some "v" })] }] }

/-- C3: `isStale` is true iff the key exists in the base locale's metadata and
(the key is absent from the target locale's metadata or the base `lastModified`
strictly exceeds the target `lastModified`); in particular a key absent from
the base locale is never stale and equal timestamps are not stale. -/
theorem isStale_characterization (s : State) (b l k : String) :
    isStale s b l k = true ↔
      ∃ bm, metaOf s b k = some bm ∧
        (metaOf s l k = none ∨
          ∃ lm, metaOf s l k = some lm ∧ lm.lastModified < bm.lastModified) := by
  unfold isStale
  cases hb : metaOf s b k with
  | none => simp
  | some bm =>
      cases hl : metaOf s l k with
      | none => simp
      | some lm => simp

/-- Witness for C3 at a concrete state: `main.k` is tracked for "en" and
untracked for "es", hence stale. -/
theorem isStale_characterization_witness :
    isStale sampleStateV "en" "es" "main.k" = true ↔
      ∃ bm, metaOf sampleStateV "en" "main.k" = some bm ∧
        (metaOf sampleStateV "es" "main.k" = none ∨
          ∃ lm, metaOf sampleStateV "es" "main.k" = some lm ∧
            lm.lastModified < bm.lastModified) :=
  isStale_characterization sampleStateV "en" "es" "main.k"

/-- Transcription of the spec's description of `diffState` (refinement
target): for every non-base locale entry in document order, for every key of
the base locale's metadata in stored order, if `isStale` holds, emit a record
with the base timestamp and the target timestamp or the missing sentinel. -/
def diffStateSpec (s : State) : List DiffEntry :=
  match s.locales.find? (fun loc => loc.code == s.baseLocale) with
  | none => []
  | some baseLocaleEntry =>
      s.locales.flatMap (fun localeEntry =>
        if localeEntry.code == s.baseLocale then []
        else
          (baseLocaleEntry.keys.filter
              (fun km => isStale s s.baseLocale localeEntry.code km.1)).map
            (fun km =>
              { locale := localeEntry.code
                key := km.1
                baseTs := km.2.lastModified
                localeTs := (lookupKey localeEntry.keys km.1).map
                  (fun m => m.lastModified) }))

theorem filterMap_ite_eq_filter_map {α β : Type} (p : α → Bool) (f : α → β) (l : List α) :
    l.filterMap (fun a => if p a then some (f a) else none) = (l.filter p).map f := by
  induction l with
  | nil => rfl
  | cons a t ih =>
      by_cases h : p a <;> simp [List.filterMap_cons, List.filter_cons, h, ih]

/-- C5: `diffState` emits exactly the stale (locale, key) pairs drawn from the
base locale's metadata, iterating locales in document order and keys in the
base locale's stored order, each record carrying the base timestamp and the
target timestamp or the missing sentinel. -/
theorem diffState_eq_spec (s : State) : diffState s = diffStateSpec s := by
  unfold diffState diffStateSpec
  cases s.locales.find? (fun loc => loc.code == s.baseLocale) with
  | none => rfl
  | some be =>
      refine congrArg s.locales.flatMap (funext fun le => ?_)
      by_cases hle : le.code = s.baseLocale
      · simp [hle]
      · rw [if_neg (by simpa using hle), if_neg (by simpa using hle)]
        exact filterMap_ite_eq_filter_map _ _ be.keys

/-- Witness for C5 at a concrete state. -/
theorem diffState_eq_spec_witness : diffState sampleStateV = diffStateSpec sampleStateV :=
  diffState_eq_spec sampleStateV

/-- C2 counterexample: if the state already stores current value "v" for
("en", "main.k") with lastModified 5, then `touch` at t1 = 10 with "v" is
itself suppressed, so after a second `touch` at t2 = 20 with "v" the stored
`lastModified` is still 5, not t1 = 10 as the claim asserts. -/
theorem touch_repeat_timestamp_counterexample :
    metaOf (touch [] (touch [] sampleStateV "en" "main.k" 10 (some "v"))
        "en" "main.k" 20 (some "v")) "en" "main.k" =
      some { lastModified := 5, current := some "v" } ∧
    metaOf (touch [] (touch [] sampleStateV "en" "main.k" 10 (some "v"))
        "en" "main.k" 20 (some "v")) "en" "main.k" ≠
      some { lastModified := 10, current := some "v" } := by
  exact ⟨by decide, by decide⟩

/-- C2 (amended): provided the stored current for (L, K) is not already `v`
before the first touch, `touch` at t1 with `v` stores `{t1, v}`, and a second
`touch` at any t2 with the identical `v` leaves the whole state unchanged
(content-equality suppression). -/
theorem touch_content_equality_suppression (langs : List LanguageCode) (s : State)
    (L K v : String) (t1 t2 : Nat)
    (h : (metaOf s L K).all (fun m => m.current != some v) = true) :
    metaOf (touch langs s L K t1 (some v)) L K =
      some { lastModified := t1, current := some v } ∧
    touch langs (touch langs s L K t1 (some v)) L K t2 (some v) =
      touch langs s L K t1 (some v) := by
  have h1 : metaOf (touch langs s L K t1 (some v)) L K =
      some { lastModified := t1, current := some v } := by
    rw [metaOf_touch_self]
    cases hm : metaOf s L K with
    | none => rfl
    | some m =>
        rw [hm] at h
        have hne : m.current ≠ some v := by simpa using h
        show (if m.current ≠ some v then
            some { lastModified := t1, current := some v } else some m) =
          some { lastModified := t1, current := some v }
        rw [if_pos hne]
  refine ⟨h1, ?_⟩
  set s1 := touch langs s L K t1 (some v) with hs1
  have hfind : ∃ e, s1.locales.find? (fun loc => loc.code == L) = some e ∧
      lookupKey e.keys K = some { lastModified := t1, current := some v } := by
    unfold metaOf at h1
    cases hf : s1.locales.find? (fun loc => loc.code == L) with
    | none => rw [hf] at h1; cases h1
    | some e => exact ⟨e, rfl, by rw [hf] at h1; exact h1⟩
  obtain ⟨e, hf, hlook⟩ := hfind
  unfold touch
  rw [hf]
  obtain ⟨pre, post, hl, hpre, hcode, hupd⟩ := find?_eq_some_split s1.locales L e hf
  rw [hupd]
  have hTE : touchEntry K t2 (some v) e = e := by
    unfold touchEntry
    rw [hlook]
    simp
  rw [hTE, ← hl]

/-- Witness for C2 (amended) at a concrete input: key `main.b` is fresh, so
the precondition holds. -/
theorem touch_content_equality_suppression_witness :
    metaOf (touch [] sampleStateV "en" "main.b" 1 (some "w")) "en" "main.b" =
      some { lastModified := 1, current := some "w" } ∧
    touch [] (touch [] sampleStateV "en" "main.b" 1 (some "w")) "en" "main.b" 2 (some "w") =
      touch [] sampleStateV "en" "main.b" 1 (some "w") :=
  touch_content_equality_suppression [] sampleStateV "en" "main.b" "w" 1 2 (by decide)

/-- C10: `touch` modifies at most the metadata entry for (L, K) — appending a
single fresh locale entry when L is untracked, and otherwise rewriting only
the first entry with code L in place, preserving its display fields and all
other keys; every other locale entry and the scalar fields of the state are
unchanged, and nothing is deleted. -/
theorem touch_frame (langs : List LanguageCode) (s : State) (L K : String)
    (d : Nat) (c : Option String) :
    (touch langs s L K d c).version = s.version ∧
    (touch langs s L K d c).baseLocale = s.baseLocale ∧
    (touch langs s L K d c).translationsPath = s.translationsPath ∧
    (touch langs s L K d c).generateKeys = s.generateKeys ∧
    ((s.locales.find? (fun loc => loc.code == L) = none ∧
        ∃ newE, (touch langs s L K d c).locales = s.locales ++ [newE] ∧
          newE.code = L ∧ (lookupKey newE.keys K).isSome = true ∧
          ∀ k, k ≠ K → lookupKey newE.keys k = none) ∨
      (∃ e pre post,
        s.locales = pre ++ e :: post ∧ (∀ x ∈ pre, x.code ≠ L) ∧ e.code = L ∧
        (touch langs s L K d c).locales = pre ++ touchEntry K d c e :: post ∧
        (touchEntry K d c e).code = e.code ∧
        (touchEntry K d c e).englishName = e.englishName ∧
        (touchEntry K d c e).localName = e.localName ∧
        (lookupKey (touchEntry K d c e).keys K).isSome = true ∧
        ∀ k, k ≠ K → lookupKey (touchEntry K d c e).keys k = lookupKey e.keys k)) := by
  obtain ⟨h1, h2, h3, h4⟩ := touch_scalar_fields langs s L K d c
  refine ⟨h1, h2, h3, h4, ?_⟩
  rcases touch_locales_cases langs s L K d c with
    ⟨hf, newE, hEq, hKeys, hCode⟩ | ⟨e, pre, post, hf, hl, hpre, hcode, hEq⟩
  · refine Or.inl ⟨hf, newE, hEq, hCode, ?_, ?_⟩
    · rw [hKeys, lookupKey_cons_self _ _ _ rfl]
      rfl
    · intro k hk
      rw [hKeys, lookupKey_cons_ne _ _ _ (Ne.symm hk)]
      rfl
  · exact Or.inr ⟨e, pre, post, hl, hpre, hcode, hEq,
      (touchEntry_code K d c e).1, (touchEntry_code K d c e).2.1,
      (touchEntry_code K d c e).2.2, touchEntry_lookup_self_isSome K d c e,
      fun k hk => touchEntry_lookup_ne K d c e k hk⟩

/-- Witness for C10 at a concrete input: touching an untracked locale appends
an entry and leaves the scalar fields unchanged. -/
theorem touch_frame_witness :
    (touch [] sampleStateV "es" "main.k" 7 none).baseLocale = sampleStateV.baseLocale :=
  (touch_frame [] sampleStateV "es" "main.k" 7 none).2.1

/-! ### The Sync Reconciler (`syncState` from index.ts)

The reconciler's filesystem inputs are modelled as values: the base locale's
directory listing as a list of named files with parsed JSON content, and the
other locale directories as a list of (code, files). `writeJSON` calls (the
creation of missing locale files) do not affect the State document and are
not modelled. -/

mutual
/-- A parsed translation JSON value: a string leaf or a nested object. -/
inductive TransVal where
  | str (s : String)
  | obj (fields : TransFields)

/-- The ordered field list of a translation JSON object. -/
inductive TransFields where
  | nil
  | fcons (key : String) (val : TransVal) (rest : TransFields)
end

mutual
/-- One entry of `flattenKeysWithValues` from index.ts: a string leaf yields a
namespaced pair, a nested object is flattened with the extended dotted path;
the empty prefix is falsy in JS, hence the `pre == ""` test. -/
def flattenVal (ns pre key : String) : TransVal → List (String × String)
  | TransVal.str v =>
      [(ns ++ "." ++ (if pre == "" then key else pre ++ "." ++ key), v)]
  | TransVal.obj fields =>
      flattenFields ns (if pre == "" then key else pre ++ "." ++ key) fields

/-- `flattenKeysWithValues` from index.ts over a field list. -/
def flattenFields (ns pre : String) : TransFields → List (String × String)
  | TransFields.nil => []
  | TransFields.fcons k v rest => flattenVal ns pre k v ++ flattenFields ns pre rest
end

/-- A JSON file in a locale directory. -/
structure SyncFile where
  name : String
  content : TransFields

/-- A non-base locale directory: its code (directory name) and its files. -/
structure LocaleDir where
  code : String
  files : List SyncFile

/-- Prefix test on character lists (kernel-computable string machinery). -/
def isPrefixChars : List Char → List Char → Bool
  | [], _ => true
  | _ :: _, [] => false
  | p :: ps, c :: cs => p == c && isPrefixChars ps cs

/-- Removal of the first occurrence of `pat`, as JS
`String.prototype.replace(pat, "")` does for a plain-string pattern. -/
def replaceFirstChars (pat : List Char) : List Char → List Char
  | [] => []
  | c :: cs =>
      if isPrefixChars pat (c :: cs) then (c :: cs).drop pat.length
      else c :: replaceFirstChars pat cs

/-- JS `s.endsWith(suffix)`. -/
def strEndsWith (s suffix : String) : Bool :=
  isPrefixChars suffix.data.reverse s.data.reverse

/-- Namespace of a translation file: `fileName.replace(".json", "")`
(first-occurrence replace, as in JS). -/
def nsOf (fileName : String) : String := ⟨replaceFirstChars ".json".data fileName.data⟩

/-- All flattened key/value pairs of the base locale's `.json` files, in the
order `syncState` reads them. -/
def baseFlatEntries (baseFiles : List SyncFile) : List (String × String) :=
  (baseFiles.filter (fun f => strEndsWith f.name ".json")).flatMap
    (fun f => flattenFields (nsOf f.name) "" f.content)

/-- One step of `syncState`'s first loop (index.ts lines 120–144): untracked
base keys are touched as new, tracked keys with a truthy changed value are
touched as updated, everything else is left alone.  The accumulator carries
(state, hasNewKeys, hasUpdatedKeys). -/
def step1Fold (langs : List LanguageCode) (baseLocale : String) (now : Nat)
    (acc : State × Bool × Bool) (kv : String × String) : State × Bool × Bool :=
  match metaOf acc.1 baseLocale kv.1 with
  | none => (touch langs acc.1 baseLocale kv.1 now (some kv.2), true, acc.2.2)
  | some existingKey =>
      if kv.2 ≠ "" ∧ existingKey.current ≠ some kv.2 then
        (touch langs acc.1 baseLocale kv.1 now (some kv.2), acc.2.1, true)
      else acc

/-- State and flags after `syncState`'s first loop. -/
def step1Result (langs : List LanguageCode) (s : State) (baseFiles : List SyncFile)
    (now : Nat) : State × Bool × Bool :=
  (baseFlatEntries baseFiles).foldl (step1Fold langs s.baseLocale now) (s, false, false)

/-- The removed-key set of `syncState`'s second loop (index.ts lines 146–166):
keys of the base locale's metadata that are absent from the flatten result. -/
def step2Removed (baseLocale : String) (s : State) (fileKeys : List String) : List String :=
  match s.locales.find? (fun loc => loc.code == baseLocale) with
  | none => []
  | some be => (be.keys.map Prod.fst).filter (fun k => ! fileKeys.contains k)

/-- Deletion of the removed keys from a locale entry. -/
def stripKeys (removed : List String) (e : LocaleEntry) : LocaleEntry :=
  { e with keys := e.keys.filter (fun p => ! removed.contains p.1) }

/-- Application of the removals: the loop deletes the removed keys from the
(first) base locale entry it found and from every entry whose code differs
from the base locale. -/
def deleteRemovedLocales (baseLocale : String) (removed : List String) :
    List LocaleEntry → Bool → List LocaleEntry
  | [], _ => []
  | e :: rest, firstPending =>
      if e.code == baseLocale then
        (if firstPending then stripKeys removed e else e) ::
          deleteRemovedLocales baseLocale removed rest false
      else
        stripKeys removed e :: deleteRemovedLocales baseLocale removed rest firstPending

/-- State after `syncState`'s removal loop. -/
def step2Apply (baseLocale : String) (removed : List String) (s : State) : State :=
  { s with locales := deleteRemovedLocales baseLocale removed s.locales true }

/-- The removed-key set computed by a `syncState` run. -/
def syncRemovedKeys (langs : List LanguageCode) (s : State) (baseFiles : List SyncFile)
    (now : Nat) : List String :=
  step2Removed s.baseLocale (step1Result langs s baseFiles now).1
    ((baseFlatEntries baseFiles).map Prod.fst)

/-- One flattened entry of a locale's file during `syncState`'s third loop
(index.ts lines 235–249): keys in the removed set are skipped; the lookup
`localeEntry?.keys?.[key]` goes through the reference captured before any
entry was pushed, hence it is `none` whenever the locale was untracked at the
start of this locale's iteration. -/
def step3Entry (langs : List LanguageCode) (locale : String) (now : Nat)
    (removed : List String) (localeExisted : Bool)
    (acc : State × Bool) (kv : String × String) : State × Bool :=
  if removed.contains kv.1 then acc
  else
    match (if localeExisted then metaOf acc.1 locale kv.1 else none) with
    | none => (touch langs acc.1 locale kv.1 now (some kv.2), true)
    | some _ => acc

/-- Processing of one base file name for a locale directory: if the locale
directory has no file of that name, an empty file is written (no state
change); otherwise its flattened entries are processed. -/
def step3File (langs : List LanguageCode) (locale : String) (now : Nat)
    (removed : List String) (localeExisted : Bool) (dirFiles : List SyncFile)
    (acc : State × Bool) (fileName : String) : State × Bool :=
  match dirFiles.find? (fun f => f.name == fileName) with
  | none => acc
  | some f =>
      (flattenFields (nsOf fileName) "" f.content).foldl
        (step3Entry langs locale now removed localeExisted) acc

/-- Processing of one non-base locale directory (index.ts lines 184–251):
untracked locales are pushed when `language-codes.json` knows them (either
way `hasNewLanguages` is set), then every base file name is processed.  The
accumulator carries (state, hasNewKeys, hasNewLanguages). -/
def step3Dir (langs : List LanguageCode) (now : Nat) (removed : List String)
    (baseJsonNames : List String)
    (acc : State × Bool × Bool) (dir : LocaleDir) : State × Bool × Bool :=
  let localeExisted := (acc.1.locales.find? (fun loc => loc.code == dir.code)).isSome
  let pushed :=
    if localeExisted then (acc.1, acc.2.2)
    else
      match langs.find? (fun l => l.code == dir.code) with
      | some li =>
          ({ acc.1 with locales := acc.1.locales ++
              [{ code := dir.code, englishName := li.englishName,
                 localName := li.localName, keys := [] }] }, true)
      | none => (acc.1, true)
  let r := baseJsonNames.foldl
    (step3File langs dir.code now removed localeExisted dir.files) (pushed.1, acc.2.1)
  (r.1, r.2, pushed.2)

/-- The flattened entries of a locale directory that `syncState`'s third loop
actually processes: for each base `.json` file name, the flattening of the
locale's file of the same name (nothing when the locale lacks the file). -/
def dirProcessedEntries (baseFiles : List SyncFile) (D : LocaleDir) : List (String × String) :=
  ((baseFiles.filter (fun f => strEndsWith f.name ".json")).map (fun f => f.name)).flatMap
    (fun fn =>
      match D.files.find? (fun f => f.name == fn) with
      | none => []
      | some f => flattenFields (nsOf fn) "" f.content)

/-- The state-mutation pipeline of `syncState` (index.ts lines 87–268) as a
function of the initial state and the filesystem contents; returns the final
state together with the save decision
`hasNewKeys || hasNewLanguages || hasUpdatedKeys || hasRemovedKeys`. -/
def syncStateModel (langs : List LanguageCode) (s : State) (baseFiles : List SyncFile)
    (dirs : List LocaleDir) (now : Nat) : State × Bool :=
  let r1 := step1Result langs s baseFiles now
  let removed := syncRemovedKeys langs s baseFiles now
  let s2 := step2Apply s.baseLocale removed r1.1
  let baseJsonNames := (baseFiles.filter (fun f => strEndsWith f.name ".json")).map
    (fun f => f.name)
  let r3 := (dirs.filter (fun d => d.code != s.baseLocale)).foldl
    (step3Dir langs now removed baseJsonNames) (s2, r1.2.1, false)
  (r3.1, r3.2.1 || r3.2.2 || r1.2.2 || ! removed.isEmpty)

/-! ### Invariant lemmas for the reconciler -/

theorem foldl_preserve {α β : Type} (f : β → α → β) (P : β → Prop) (l : List α)
    (hstep : ∀ acc x, x ∈ l → P acc → P (f acc x)) :
    ∀ acc, P acc → P (l.foldl f acc) := by
  induction l with
  | nil => intro acc h; exact h
  | cons x t ih =>
      intro acc h
      rw [List.foldl_cons]
      exact ih (fun a y hy => hstep a y (List.mem_cons_of_mem x hy)) _
        (hstep acc x (List.mem_cons_self x t) h)

theorem step1Fold_state_eval (langs : List LanguageCode) (baseLocale : String) (now : Nat)
    (acc : State × Bool × Bool) (kv : String × String) :
    (step1Fold langs baseLocale now acc kv).1 =
      match metaOf acc.1 baseLocale kv.1 with
      | none => touch langs acc.1 baseLocale kv.1 now (some kv.2)
      | some existingKey =>
          if kv.2 ≠ "" ∧ existingKey.current ≠ some kv.2 then
            touch langs acc.1 baseLocale kv.1 now (some kv.2)
          else acc.1 := by
  unfold step1Fold
  cases metaOf acc.1 baseLocale kv.1 with
  | none => rfl
  | some m =>
      show (if kv.2 ≠ "" ∧ m.current ≠ some kv.2 then
          (touch langs acc.1 baseLocale kv.1 now (some kv.2), acc.2.1, true) else acc).1 =
        if kv.2 ≠ "" ∧ m.current ≠ some kv.2 then
          touch langs acc.1 baseLocale kv.1 now (some kv.2) else acc.1
      by_cases h : kv.2 ≠ "" ∧ m.current ≠ some kv.2
      · rw [if_pos h, if_pos h]
      · rw [if_neg h, if_neg h]

/-- During the base loop, a tracked key whose file occurrences all carry the
empty string keeps its stored metadata (falsy suppression). -/
theorem foldl_step1_empty_preserved (langs : List LanguageCode) (baseLocale : String)
    (now : Nat) (k : String) (m : KeyMeta) (l : List (String × String))
    (hl : ∀ kv ∈ l, kv.1 = k → kv.2 = "") (acc : State × Bool × Bool)
    (hm : metaOf acc.1 baseLocale k = some m) :
    metaOf (l.foldl (step1Fold langs baseLocale now) acc).1 baseLocale k = some m := by
  refine foldl_preserve (step1Fold langs baseLocale now)
    (fun acc => metaOf acc.1 baseLocale k = some m) l ?_ acc hm
  intro a kv hkv ha
  rw [step1Fold_state_eval]
  by_cases hk : kv.1 = k
  · have hempty : kv.2 = "" := hl kv hkv hk
    rw [hk, ha]
    show metaOf (if kv.2 ≠ "" ∧ m.current ≠ some kv.2 then
        touch langs a.1 baseLocale k now (some kv.2) else a.1) baseLocale k = some m
    rw [if_neg (by simp [hempty])]
    exact ha
  · cases hmv : metaOf a.1 baseLocale kv.1 with
    | none =>
        rw [metaOf_touch_frame langs a.1 baseLocale kv.1 now (some kv.2) baseLocale k
          (Or.inr (fun he => hk he.symm))]
        exact ha
    | some m2 =>
        show metaOf (if kv.2 ≠ "" ∧ m2.current ≠ some kv.2 then
            touch langs a.1 baseLocale kv.1 now (some kv.2) else a.1) baseLocale k = some m
        by_cases hcond : kv.2 ≠ "" ∧ m2.current ≠ some kv.2
        · rw [if_pos hcond,
            metaOf_touch_frame langs a.1 baseLocale kv.1 now (some kv.2) baseLocale k
              (Or.inr (fun he => hk he.symm))]
          exact ha
        · rw [if_neg hcond]
          exact ha

theorem lookupKey_filter_not_removed (removed : List String) (ks : List (String × KeyMeta))
    (k : String) (hk : removed.contains k = false) :
    lookupKey (ks.filter (fun p => ! removed.contains p.1)) k = lookupKey ks k := by
  induction ks with
  | nil => rfl
  | cons p rest ih =>
      by_cases hp : p.1 = k
      · have hkeep : (! removed.contains p.1) = true := by rw [hp, hk]; rfl
        rw [List.filter_cons, if_pos hkeep, lookupKey_cons_self p _ k hp,
          lookupKey_cons_self p _ k hp]
      · cases hkeep : (! removed.contains p.1) with
        | true =>
            rw [List.filter_cons, if_pos hkeep, lookupKey_cons_ne p _ k hp,
              lookupKey_cons_ne p _ k hp]
            exact ih
        | false =>
            rw [List.filter_cons, if_neg (by rw [hkeep]; exact Bool.false_ne_true),
              lookupKey_cons_ne p _ k hp]
            exact ih

theorem stripKeys_code (removed : List String) (e : LocaleEntry) :
    (stripKeys removed e).code = e.code := rfl

theorem stripKeys_lookup_not_removed (removed : List String) (e : LocaleEntry) (k : String)
    (hk : removed.contains k = false) :
    lookupKey (stripKeys removed e).keys k = lookupKey e.keys k :=
  lookupKey_filter_not_removed removed e.keys k hk

/-- Removal application does not change the metadata of keys outside the
removed set, for any locale. -/
theorem metaOf_step2Apply_not_removed (baseLocale : String) (removed : List String)
    (s : State) (L k : String) (hk : removed.contains k = false) :
    metaOf (step2Apply baseLocale removed s) L k = metaOf s L k := by
  unfold step2Apply metaOf
  dsimp only
  suffices h : ∀ (l : List LocaleEntry) (flag : Bool),
      ((deleteRemovedLocales baseLocale removed l flag).find? (fun loc => loc.code == L)).bind
        (fun e => lookupKey e.keys k) =
      (l.find? (fun loc => loc.code == L)).bind (fun e => lookupKey e.keys k) by
    exact h s.locales true
  intro l
  induction l with
  | nil => intro flag; rfl
  | cons e rest ih =>
      intro flag
      unfold deleteRemovedLocales
      have hhead : ∀ (x : LocaleEntry), x.code = e.code →
          lookupKey x.keys k = lookupKey e.keys k →
          ∀ t1 t2 : List LocaleEntry,
            ((t1.find? (fun loc => loc.code == L)).bind (fun e => lookupKey e.keys k) =
              (t2.find? (fun loc => loc.code == L)).bind (fun e => lookupKey e.keys k)) →
            (((x :: t1).find? (fun loc => loc.code == L)).bind (fun e => lookupKey e.keys k) =
              ((e :: t2).find? (fun loc => loc.code == L)).bind (fun e => lookupKey e.keys k)) := by
        intro x hx hlook t1 t2 hrec
        rw [List.find?_cons, List.find?_cons, hx]
        cases hc : (e.code == L) with
        | true => exact hlook
        | false => exact hrec
      by_cases he : e.code = baseLocale
      · rw [if_pos (by simpa using he)]
        cases flag with
        | true =>
            exact hhead (stripKeys removed e) rfl
              (stripKeys_lookup_not_removed removed e k hk) _ _ (ih false)
        | false => exact hhead e rfl rfl _ _ (ih false)
      · rw [if_neg (by simpa using he)]
        exact hhead (stripKeys removed e) rfl
          (stripKeys_lookup_not_removed removed e k hk) _ _ (ih flag)

theorem metaOf_append_code_ne (s : State) (x : LocaleEntry) (L k : String) (hx : x.code ≠ L) :
    metaOf { s with locales := s.locales ++ [x] } L k = metaOf s L k := by
  unfold metaOf
  dsimp only
  rw [List.find?_append]
  cases hf : s.locales.find? (fun loc => loc.code == L) with
  | some e => rfl
  | none =>
      rw [Option.none_or, List.find?_cons]
      simp only [show (x.code == L) = false by simpa using hx]
      rfl

theorem step3Entry_metaOf_frame (langs : List LanguageCode) (locale : String) (now : Nat)
    (removed : List String) (localeExisted : Bool) (acc : State × Bool) (kv : String × String)
    (L k : String) (h : L ≠ locale ∨ k ≠ kv.1) :
    metaOf (step3Entry langs locale now removed localeExisted acc kv).1 L k =
      metaOf acc.1 L k := by
  unfold step3Entry
  split
  · rfl
  · cases hx : (if localeExisted then metaOf acc.1 locale kv.1 else none) with
    | none => exact metaOf_touch_frame langs acc.1 locale kv.1 now (some kv.2) L k h
    | some m => rfl

theorem foldl_step3Entry_metaOf_other (langs : List LanguageCode) (locale : String)
    (now : Nat) (removed : List String) (localeExisted : Bool) (L k : String)
    (hL : L ≠ locale) (l : List (String × String)) (acc : State × Bool) :
    metaOf ((l.foldl (step3Entry langs locale now removed localeExisted) acc)).1 L k =
      metaOf acc.1 L k := by
  refine foldl_preserve (step3Entry langs locale now removed localeExisted)
    (fun a => metaOf a.1 L k = metaOf acc.1 L k) l ?_ acc rfl
  intro a kvx _ hP
  rw [step3Entry_metaOf_frame langs locale now removed localeExisted a kvx L k (Or.inl hL)]
  exact hP

theorem step3File_metaOf_other (langs : List LanguageCode) (locale : String) (now : Nat)
    (removed : List String) (localeExisted : Bool) (dirFiles : List SyncFile)
    (acc : State × Bool) (fileName : String) (L k : String) (hL : L ≠ locale) :
    metaOf (step3File langs locale now removed localeExisted dirFiles acc fileName).1 L k =
      metaOf acc.1 L k := by
  unfold step3File
  cases dirFiles.find? (fun f => f.name == fileName) with
  | none => rfl
  | some f =>
      exact foldl_step3Entry_metaOf_other langs locale now removed localeExisted L k hL _ acc

theorem step3Dir_metaOf_other (langs : List LanguageCode) (now : Nat)
    (removed : List String) (names : List String) (acc : State × Bool × Bool)
    (dir : LocaleDir) (L k : String) (hL : L ≠ dir.code) :
    metaOf (step3Dir langs now removed names acc dir).1 L k = metaOf acc.1 L k := by
  unfold step3Dir
  dsimp only
  have hfold : ∀ (ex : Bool) (st : State) (b : Bool), metaOf st L k = metaOf acc.1 L k →
      metaOf ((names.foldl
        (step3File langs dir.code now removed ex dir.files) (st, b))).1 L k =
      metaOf acc.1 L k := by
    intro ex st b hst
    refine foldl_preserve _ (fun a => metaOf a.1 L k = metaOf acc.1 L k) names ?_ (st, b) hst
    intro a fn _ hP
    rw [step3File_metaOf_other langs dir.code now removed ex dir.files a fn L k hL]
    exact hP
  cases hex : (acc.1.locales.find? (fun loc => loc.code == dir.code)).isSome with
  | true =>
      rw [if_pos rfl]
      exact hfold true acc.1 acc.2.1 rfl
  | false =>
      rw [if_neg (fun hc => Bool.false_ne_true hc)]
      cases hlang : langs.find? (fun l => l.code == dir.code) with
      | none => exact hfold false acc.1 acc.2.1 rfl
      | some li =>
          exact hfold false _ acc.2.1 (metaOf_append_code_ne acc.1 _ L k (Ne.symm hL))

theorem foldl_step3Dir_metaOf_other (langs : List LanguageCode) (now : Nat)
    (removed : List String) (names : List String) (L k : String) (ds : List LocaleDir)
    (hds : ∀ d ∈ ds, L ≠ d.code) (acc : State × Bool × Bool) :
    metaOf ((ds.foldl (step3Dir langs now removed names) acc)).1 L k = metaOf acc.1 L k := by
  refine foldl_preserve (step3Dir langs now removed names)
    (fun a => metaOf a.1 L k = metaOf acc.1 L k) ds ?_ acc rfl
  intro a d hd hP
  rw [step3Dir_metaOf_other langs now removed names a d L k (hds d hd)]
  exact hP

/-- C7: during the reconciler's base loop, a key already tracked for the base
locale whose freshly read file value is the empty string is never touched:
its stored metadata is unchanged by the whole run (falsy suppression),
even when the stored current value is a different, non-empty string. -/
theorem syncState_empty_string_suppression (langs : List LanguageCode) (s : State)
    (baseFiles : List SyncFile) (dirs : List LocaleDir) (now : Nat) (k : String) (m : KeyMeta)
    (hm : metaOf s s.baseLocale k = some m)
    (hin : k ∈ (baseFlatEntries baseFiles).map Prod.fst)
    (hall : ∀ kv ∈ baseFlatEntries baseFiles, kv.1 = k → kv.2 = "") :
    metaOf (syncStateModel langs s baseFiles dirs now).1 s.baseLocale k = some m := by
  have h1 : metaOf (step1Result langs s baseFiles now).1 s.baseLocale k = some m := by
    unfold step1Result
    exact foldl_step1_empty_preserved langs s.baseLocale now k m _ hall _ hm
  have hrem : (syncRemovedKeys langs s baseFiles now).contains k = false := by
    unfold syncRemovedKeys step2Removed
    cases hf : (step1Result langs s baseFiles now).1.locales.find?
        (fun loc => loc.code == s.baseLocale) with
    | none => rfl
    | some be =>
        have hk : k ∉ (be.keys.map Prod.fst).filter
            (fun kk => ! ((baseFlatEntries baseFiles).map Prod.fst).contains kk) := by
          intro hmem
          have hnotin : k ∉ (baseFlatEntries baseFiles).map Prod.fst := by
            simpa using (List.mem_filter.mp hmem).2
          exact hnotin hin
        simpa using hk
  have h2 : metaOf (step2Apply s.baseLocale (syncRemovedKeys langs s baseFiles now)
      (step1Result langs s baseFiles now).1) s.baseLocale k = some m := by
    rw [metaOf_step2Apply_not_removed _ _ _ _ _ hrem]
    exact h1
  have h3 := foldl_step3Dir_metaOf_other langs now (syncRemovedKeys langs s baseFiles now)
    ((baseFiles.filter (fun f => strEndsWith f.name ".json")).map (fun f => f.name))
    s.baseLocale k (dirs.filter (fun d => d.code != s.baseLocale))
    (fun d hd => by
      have hb : (d.code != s.baseLocale) = true := (List.mem_filter.mp hd).2
      intro hEq
      exact (by simpa using hb : d.code ≠ s.baseLocale) hEq.symm)
    (step2Apply s.baseLocale (syncRemovedKeys langs s baseFiles now)
        (step1Result langs s baseFiles now).1,
      (step1Result langs s baseFiles now).2.1, false)
  unfold syncStateModel
  dsimp only
  rw [h3]
  exact h2

/-- Fixture for C7: the base locale tracks `m.a` with cached value "x", and
the base file now carries the empty string for that key. -/
def c7State : State :=
  { version := "0", baseLocale := "en", translationsPath := "translations",
    generateKeys := true,
    locales := [{ code := "en", englishName := "English", localName := "English",
                  keys := [("m.a", { lastModified := 1, current := some "x" })] }] }

/-- Base files for the C7 witness. -/
def c7Files : List SyncFile :=
  [{ name := "m.json", content := TransFields.fcons "a" (TransVal.str "") TransFields.nil }]

/-- Witness for C7: the emptied base value leaves the tracked metadata at its
old timestamp and old non-empty value. -/
theorem syncState_empty_string_suppression_witness :
    metaOf (syncStateModel [] c7State c7Files [] 9).1 c7State.baseLocale "m.a" =
      some { lastModified := 1, current := some "x" } :=
  syncState_empty_string_suppression [] c7State c7Files [] 9 "m.a"
    { lastModified := 1, current := some "x" } (by decide) (by decide) (by decide)

theorem lookupKey_isSome_iff_mem (ks : List (String × KeyMeta)) (k : String) :
    (lookupKey ks k).isSome = true ↔ k ∈ ks.map Prod.fst := by
  induction ks with
  | nil => simp [lookupKey]
  | cons p rest ih =>
      by_cases hp : p.1 = k
      · rw [lookupKey_cons_self p _ k hp]
        simp [hp]
      · rw [lookupKey_cons_ne p _ k hp]
        simp only [List.map_cons, List.mem_cons]
        rw [ih]
        exact ⟨fun h => Or.inr h, fun h => h.resolve_left (fun he => hp he.symm)⟩

theorem stripKeys_lookup_removed (removed : List String) (e : LocaleEntry) (k : String)
    (hk : removed.contains k = true) :
    lookupKey (stripKeys removed e).keys k = none := by
  show lookupKey (e.keys.filter (fun p => ! removed.contains p.1)) k = none
  induction e.keys with
  | nil => rfl
  | cons p rest ih =>
      by_cases hp : p.1 = k
      · rw [List.filter_cons, if_neg (by rw [hp, hk]; exact Bool.false_ne_true)]
        exact ih
      · cases hkeep : (! removed.contains p.1) with
        | true =>
            rw [List.filter_cons, if_pos hkeep, lookupKey_cons_ne p _ k hp]
            exact ih
        | false =>
            rw [List.filter_cons, if_neg (by rw [hkeep]; exact Bool.false_ne_true)]
            exact ih

theorem filter_code_length_le_one (l : List LocaleEntry) (c : String)
    (h : (l.map (fun e => e.code)).Nodup) :
    (l.filter (fun e => e.code == c)).length ≤ 1 := by
  induction l with
  | nil => simp
  | cons e rest ih =>
      rw [List.map_cons, List.nodup_cons] at h
      by_cases hc : e.code = c
      · rw [List.filter_cons, if_pos (by simpa using hc)]
        have hnil : rest.filter (fun e => e.code == c) = [] := by
          refine List.filter_eq_nil_iff.mpr (fun x hx => ?_)
          intro hxc
          exact h.1 (by
            rw [show e.code = x.code by rw [hc]; exact (by simpa using hxc : x.code = c).symm]
            exact List.mem_map.mpr ⟨x, hx, rfl⟩)
        rw [hnil]
        simp
      · rw [List.filter_cons, if_neg (by simpa using hc)]
        exact ih h.2

/-- Once a key is in the removed set, applying the removals leaves no locale
entry holding it, provided at most one entry carries the base code. -/
theorem deleteRemovedLocales_absence (baseLocale : String) (removed : List String)
    (k : String) (hk : removed.contains k = true) :
    ∀ (l : List LocaleEntry) (flag : Bool),
      (l.filter (fun e => e.code == baseLocale)).length ≤ (if flag = true then 1 else 0) →
      ∀ e ∈ deleteRemovedLocales baseLocale removed l flag, lookupKey e.keys k = none := by
  intro l
  induction l with
  | nil => intro flag _ e he; cases he
  | cons x rest ih =>
      intro flag hcnt e he
      unfold deleteRemovedLocales at he
      by_cases hx : x.code = baseLocale
      · rw [if_pos (by simpa using hx)] at he
        cases flag with
        | false =>
            exfalso
            rw [List.filter_cons, if_pos (by simpa using hx)] at hcnt
            simp at hcnt
        | true =>
            rw [List.filter_cons, if_pos (by simpa using hx)] at hcnt
            rcases List.mem_cons.mp he with rfl | he
            · exact stripKeys_lookup_removed removed x k hk
            · refine ih false ?_ e he
              simpa using Nat.le_of_succ_le_succ hcnt
      · rw [if_neg (by simpa using hx)] at he
        rcases List.mem_cons.mp he with rfl | he
        · exact stripKeys_lookup_removed removed x k hk
        · refine ih flag ?_ e he
          rw [List.filter_cons, if_neg (by simpa using hx)] at hcnt
          exact hcnt

theorem touch_codes_nodup (langs : List LanguageCode) (s : State) (L K : String)
    (d : Nat) (c : Option String) (h : (s.locales.map (fun e => e.code)).Nodup) :
    ((touch langs s L K d c).locales.map (fun e => e.code)).Nodup := by
  rcases touch_locales_cases langs s L K d c with
    ⟨hf, newE, hEq, hKeys, hCode⟩ | ⟨e, pre, post, hf, hl, hpre, hcode, hEq⟩
  · rw [hEq, List.map_append]
    rw [List.nodup_append]
    refine ⟨h, by simp, ?_⟩
    intro a ha hb
    have haL : a = L := by
      rw [List.map_singleton, hCode] at hb
      simpa using hb
    obtain ⟨x, hx, hxa⟩ := List.mem_map.mp ha
    have : (x.code == L) = true := by rw [hxa, haL]; simp
    have := List.find?_eq_none.mp hf x hx
    simp_all
  · have hmapeq : (pre ++ touchEntry K d c e :: post).map (fun e => e.code) =
        (pre ++ e :: post).map (fun e => e.code) := by
      simp [(touchEntry_code K d c e).1]
    rw [hEq, hmapeq, ← hl]
    exact h

theorem foldl_step1_metaOf_out_of_files (langs : List LanguageCode) (baseLocale : String)
    (now : Nat) (k : String) (l : List (String × String)) (hk : ∀ kv ∈ l, kv.1 ≠ k)
    (acc : State × Bool × Bool) :
    metaOf (l.foldl (step1Fold langs baseLocale now) acc).1 baseLocale k =
      metaOf acc.1 baseLocale k := by
  refine foldl_preserve (step1Fold langs baseLocale now)
    (fun a => metaOf a.1 baseLocale k = metaOf acc.1 baseLocale k) l ?_ acc rfl
  intro a kv hkv hP
  rw [step1Fold_state_eval]
  have hne : baseLocale ≠ baseLocale ∨ k ≠ kv.1 := Or.inr (fun he => hk kv hkv he.symm)
  cases hmv : metaOf a.1 baseLocale kv.1 with
  | none =>
      rw [metaOf_touch_frame langs a.1 baseLocale kv.1 now (some kv.2) baseLocale k hne]
      exact hP
  | some m2 =>
      show metaOf (if kv.2 ≠ "" ∧ m2.current ≠ some kv.2 then
          touch langs a.1 baseLocale kv.1 now (some kv.2) else a.1) baseLocale k =
        metaOf acc.1 baseLocale k
      by_cases hcond : kv.2 ≠ "" ∧ m2.current ≠ some kv.2
      · rw [if_pos hcond,
          metaOf_touch_frame langs a.1 baseLocale kv.1 now (some kv.2) baseLocale k hne]
        exact hP
      · rw [if_neg hcond]
        exact hP

theorem foldl_step1_codes_nodup (langs : List LanguageCode) (baseLocale : String)
    (now : Nat) (l : List (String × String)) (acc : State × Bool × Bool)
    (h : (acc.1.locales.map (fun e => e.code)).Nodup) :
    (((l.foldl (step1Fold langs baseLocale now) acc).1.locales.map
      (fun e => e.code))).Nodup := by
  refine foldl_preserve (step1Fold langs baseLocale now)
    (fun a => (a.1.locales.map (fun e => e.code)).Nodup) l ?_ acc h
  intro a kv _ hP
  rw [step1Fold_state_eval]
  cases hmv : metaOf a.1 baseLocale kv.1 with
  | none => exact touch_codes_nodup langs a.1 baseLocale kv.1 now (some kv.2) hP
  | some m2 =>
      show ((if kv.2 ≠ "" ∧ m2.current ≠ some kv.2 then
          touch langs a.1 baseLocale kv.1 now (some kv.2) else a.1).locales.map
          (fun e => e.code)).Nodup
      by_cases hcond : kv.2 ≠ "" ∧ m2.current ≠ some kv.2
      · rw [if_pos hcond]
        exact touch_codes_nodup langs a.1 baseLocale kv.1 now (some kv.2) hP
      · rw [if_neg hcond]
        exact hP

/-- All-entries absence of a key is preserved by the third reconciler loop
once the key is in the removed set. -/
theorem step3Entry_preserves_global_absence (langs : List LanguageCode) (locale : String)
    (now : Nat) (removed : List String) (localeExisted : Bool) (k : String)
    (hk : removed.contains k = true) (acc : State × Bool) (kv : String × String)
    (h : ∀ e ∈ acc.1.locales, lookupKey e.keys k = none) :
    ∀ e ∈ (step3Entry langs locale now removed localeExisted acc kv).1.locales,
      lookupKey e.keys k = none := by
  unfold step3Entry
  split
  · exact h
  · rename_i hnotrem
    cases hx : (if localeExisted then metaOf acc.1 locale kv.1 else none) with
    | some m => exact h
    | none =>
        refine touch_preserves_absence langs acc.1 locale kv.1 now (some kv.2) k ?_ h
        intro hEq
        rw [← hEq] at hnotrem
        exact hnotrem hk

theorem step3Dir_preserves_global_absence (langs : List LanguageCode) (now : Nat)
    (removed : List String) (names : List String) (k : String)
    (hk : removed.contains k = true) (acc : State × Bool × Bool) (dir : LocaleDir)
    (h : ∀ e ∈ acc.1.locales, lookupKey e.keys k = none) :
    ∀ e ∈ (step3Dir langs now removed names acc dir).1.locales,
      lookupKey e.keys k = none := by
  unfold step3Dir
  dsimp only
  have hfile : ∀ (ex : Bool) (a : State × Bool) (fn : String),
      (∀ e ∈ a.1.locales, lookupKey e.keys k = none) →
      ∀ e ∈ (step3File langs dir.code now removed ex dir.files a fn).1.locales,
        lookupKey e.keys k = none := by
    intro ex a fn ha
    unfold step3File
    cases dir.files.find? (fun f => f.name == fn) with
    | none => exact ha
    | some f =>
        refine foldl_preserve (step3Entry langs dir.code now removed ex)
          (fun a => ∀ e ∈ a.1.locales, lookupKey e.keys k = none) _ ?_ a ha
        intro a' kv _ hP
        exact step3Entry_preserves_global_absence langs dir.code now removed ex k hk a' kv hP
  have hfold : ∀ (ex : Bool) (st : State) (b : Bool),
      (∀ e ∈ st.locales, lookupKey e.keys k = none) →
      ∀ e ∈ ((names.foldl (step3File langs dir.code now removed ex dir.files)
        (st, b))).1.locales, lookupKey e.keys k = none := by
    intro ex st b hst
    refine foldl_preserve (step3File langs dir.code now removed ex dir.files)
      (fun a => ∀ e ∈ a.1.locales, lookupKey e.keys k = none) names ?_ (st, b) hst
    intro a fn _ hP
    exact hfile ex a fn hP
  cases hex : (acc.1.locales.find? (fun loc => loc.code == dir.code)).isSome with
  | true =>
      rw [if_pos rfl]
      exact hfold true acc.1 acc.2.1 h
  | false =>
      rw [if_neg (fun hc => Bool.false_ne_true hc)]
      cases hlang : langs.find? (fun l => l.code == dir.code) with
      | none => exact hfold false acc.1 acc.2.1 h
      | some li =>
          refine hfold false _ acc.2.1 ?_
          intro e he
          rcases List.mem_append.mp he with he | he
          · exact h e he
          · rcases List.mem_singleton.mp he with rfl
            rfl

theorem metaOf_eq_none_of_all_absent (s : State) (k : String)
    (h : ∀ e ∈ s.locales, lookupKey e.keys k = none) (L : String) : metaOf s L k = none := by
  unfold metaOf
  cases hf : s.locales.find? (fun loc => loc.code == L) with
  | none => rfl
  | some e => exact h e (List.mem_of_find?_eq_some hf)

/-- C4: a key present in the base locale's metadata but absent from the
flatten result of the base files is deleted from the base locale's metadata
and from every other locale's metadata by a reconciler run, and is never
re-touched later in the same run — even when a target locale's file still
contains a value for it (the run's inputs `dirs` are arbitrary). -/
theorem syncState_removal_propagation (langs : List LanguageCode) (s : State)
    (baseFiles : List SyncFile) (dirs : List LocaleDir) (now : Nat) (k : String)
    (hnodup : (s.locales.map (fun e => e.code)).Nodup)
    (hbase : (metaOf s s.baseLocale k).isSome = true)
    (hout : k ∉ (baseFlatEntries baseFiles).map Prod.fst) :
    ∀ e ∈ (syncStateModel langs s baseFiles dirs now).1.locales,
      lookupKey e.keys k = none := by
  have hkeys : ∀ kv ∈ baseFlatEntries baseFiles, kv.1 ≠ k := by
    intro kv hkv hEq
    exact hout (List.mem_map.mpr ⟨kv, hkv, hEq⟩)
  have h1 : metaOf (step1Result langs s baseFiles now).1 s.baseLocale k =
      metaOf s s.baseLocale k := by
    unfold step1Result
    exact foldl_step1_metaOf_out_of_files langs s.baseLocale now k _ hkeys _
  have hnodup1 : ((step1Result langs s baseFiles now).1.locales.map
      (fun e => e.code)).Nodup := by
    unfold step1Result
    exact foldl_step1_codes_nodup langs s.baseLocale now _ _ hnodup
  have hrem : (syncRemovedKeys langs s baseFiles now).contains k = true := by
    unfold syncRemovedKeys step2Removed
    have hsome : (metaOf (step1Result langs s baseFiles now).1 s.baseLocale k).isSome = true := by
      rw [h1]
      exact hbase
    cases hf : (step1Result langs s baseFiles now).1.locales.find?
        (fun loc => loc.code == s.baseLocale) with
    | none =>
        exfalso
        unfold metaOf at hsome
        rw [hf] at hsome
        simp at hsome
    | some be =>
        have hlook : (lookupKey be.keys k).isSome = true := by
          unfold metaOf at hsome
          rw [hf] at hsome
          simpa using hsome
        have hmem : k ∈ be.keys.map Prod.fst := (lookupKey_isSome_iff_mem be.keys k).mp hlook
        have hmf : k ∈ (be.keys.map Prod.fst).filter
            (fun kk => ! ((baseFlatEntries baseFiles).map Prod.fst).contains kk) := by
          refine List.mem_filter.mpr ⟨hmem, ?_⟩
          simpa using hout
        simpa using hmf
  have hcnt : (((step1Result langs s baseFiles now).1.locales).filter
      (fun e => e.code == s.baseLocale)).length ≤ (if true = true then 1 else 0) := by
    simpa using filter_code_length_le_one _ s.baseLocale hnodup1
  have h2 : ∀ e ∈ (step2Apply s.baseLocale (syncRemovedKeys langs s baseFiles now)
      (step1Result langs s baseFiles now).1).locales, lookupKey e.keys k = none := by
    intro e he
    exact deleteRemovedLocales_absence s.baseLocale _ k hrem _ true hcnt e he
  unfold syncStateModel
  dsimp only
  exact foldl_preserve _ (fun a => ∀ e ∈ a.1.locales, lookupKey e.keys k = none) _
    (fun a d _ hP =>
      step3Dir_preserves_global_absence langs now _ _ k hrem a d hP)
    (step2Apply s.baseLocale (syncRemovedKeys langs s baseFiles now)
        (step1Result langs s baseFiles now).1,
      (step1Result langs s baseFiles now).2.1, false) h2

/-- Fixture for C4: the base locale tracks `m.obsolete` and `m.keep`, the
target locale "es" tracks `m.obsolete`; the base file has dropped
`m.obsolete`, while the "es" file still contains it. -/
def c4State : State :=
  { version := "0", baseLocale := "en", translationsPath := "translations",
    generateKeys := true,
    locales :=
      [{ code := "en", englishName := "English", localName := "English",
         keys := [("m.obsolete", { lastModified := 1, current := some "x" }),
                  ("m.keep", { lastModified := 1, current := some "y" })] },
       { code := "es", englishName := "Spanish", localName := "Español",
         keys := [("m.obsolete", { lastModified := 1, current := some "viejo" })] }] }

/-- Base files for the C4 witness (the obsolete key has disappeared). -/
def c4Files : List SyncFile :=
  [{ name := "m.json", content := TransFields.fcons "keep" (TransVal.str "y") TransFields.nil }]

/-- Locale directories for the C4 witness: "es" still physically contains the
obsolete key. -/
def c4Dirs : List LocaleDir :=
  [{ code := "es",
     files := [{ name := "m.json",
                 content := TransFields.fcons "obsolete" (TransVal.str "viejo")
                   TransFields.nil }] }]

/-- Witness for C4: after the run the obsolete key is gone from "es" even
though its file still contains it. -/
theorem syncState_removal_propagation_witness :
    metaOf (syncStateModel [] c4State c4Files c4Dirs 9).1 "es" "m.obsolete" = none :=
  metaOf_eq_none_of_all_absent _ _
    (syncState_removal_propagation [] c4State c4Files c4Dirs 9 "m.obsolete"
      (by decide) (by decide) (by decide)) "es"

theorem foldl_step1_metaOf_other_locale (langs : List LanguageCode) (baseLocale : String)
    (now : Nat) (L k : String) (hL : L ≠ baseLocale) (l : List (String × String))
    (acc : State × Bool × Bool) :
    metaOf (l.foldl (step1Fold langs baseLocale now) acc).1 L k = metaOf acc.1 L k := by
  refine foldl_preserve (step1Fold langs baseLocale now)
    (fun a => metaOf a.1 L k = metaOf acc.1 L k) l ?_ acc rfl
  intro a kv _ hP
  rw [step1Fold_state_eval]
  cases hmv : metaOf a.1 baseLocale kv.1 with
  | none =>
      rw [metaOf_touch_frame langs a.1 baseLocale kv.1 now (some kv.2) L k (Or.inl hL)]
      exact hP
  | some m2 =>
      show metaOf (if kv.2 ≠ "" ∧ m2.current ≠ some kv.2 then
          touch langs a.1 baseLocale kv.1 now (some kv.2) else a.1) L k = metaOf acc.1 L k
      by_cases hcond : kv.2 ≠ "" ∧ m2.current ≠ some kv.2
      · rw [if_pos hcond,
          metaOf_touch_frame langs a.1 baseLocale kv.1 now (some kv.2) L k (Or.inl hL)]
        exact hP
      · rw [if_neg hcond]
        exact hP

/-- The per-file third-loop processing of a locale directory equals one left
fold of `step3Entry` over the concatenation of the processed entries. -/
theorem step3Files_eq_foldl_entries (langs : List LanguageCode) (locale : String)
    (now : Nat) (removed : List String) (ex : Bool) (dirFiles : List SyncFile)
    (names : List String) (acc : State × Bool) :
    names.foldl (step3File langs locale now removed ex dirFiles) acc =
      (names.flatMap (fun fn =>
        match dirFiles.find? (fun f => f.name == fn) with
        | none => []
        | some f => flattenFields (nsOf fn) "" f.content)).foldl
        (step3Entry langs locale now removed ex) acc := by
  induction names generalizing acc with
  | nil => rfl
  | cons fn rest ih =>
      rw [List.foldl_cons, List.flatMap_cons, List.foldl_append]
      have hfile : step3File langs locale now removed ex dirFiles acc fn =
          (match dirFiles.find? (fun (f : SyncFile) => f.name == fn) with
            | none => []
            | some f => flattenFields (nsOf fn) "" f.content).foldl
            (step3Entry langs locale now removed ex) acc := by
        unfold step3File
        cases dirFiles.find? (fun (f : SyncFile) => f.name == fn) <;> rfl
      rw [hfile, ih]

theorem foldl_step3Entry_metaOf_value_frame (langs : List LanguageCode) (locale : String)
    (now : Nat) (removed : List String) (ex : Bool) (k : String) (V : Option KeyMeta)
    (l : List (String × String)) (hl : ∀ kv ∈ l, kv.1 ≠ k) (acc : State × Bool)
    (hV : metaOf acc.1 locale k = V) :
    metaOf ((l.foldl (step3Entry langs locale now removed ex) acc)).1 locale k = V := by
  refine foldl_preserve (step3Entry langs locale now removed ex)
    (fun a => metaOf a.1 locale k = V) l ?_ acc hV
  intro a kv hkv hP
  rw [step3Entry_metaOf_frame langs locale now removed ex a kv locale k
    (Or.inr (fun he => hl kv hkv he.symm))]
  exact hP

theorem step3Entry_touch_at (langs : List LanguageCode) (locale : String) (now : Nat)
    (removed : List String) (ex : Bool) (k v : String) (acc : State × Bool)
    (hrem : removed.contains k = false) (hnone : metaOf acc.1 locale k = none) :
    metaOf (step3Entry langs locale now removed ex acc (k, v)).1 locale k =
      some { lastModified := now, current := some v } := by
  unfold step3Entry
  rw [if_neg (fun hc => Bool.false_ne_true (hrem ▸ hc))]
  have hscrut : (if ex = true then metaOf acc.1 locale (k, v).1 else none) = none := by
    cases ex with
    | true => simpa using hnone
    | false => rfl
  rw [hscrut]
  show metaOf (touch langs acc.1 locale k now (some v)) locale k =
    some { lastModified := now, current := some v }
  rw [metaOf_touch_self, hnone]

theorem metaOf_append_self_empty (s : State) (code eng loc : String) (k : String)
    (hf : s.locales.find? (fun l => l.code == code) = none) :
    metaOf { s with locales := s.locales ++
        [{ code := code, englishName := eng, localName := loc, keys := [] }] } code k =
      none := by
  unfold metaOf
  dsimp only
  rw [find?_append_left_none _ _ _ hf, List.find?_cons]
  simp only [beq_self_eq_true]
  rfl

theorem nodup_split_ne {α β : Type} (f : α → β) (s t : List α) (a : α)
    (h : ((s ++ a :: t).map f).Nodup) :
    (∀ x ∈ s, f x ≠ f a) ∧ (∀ x ∈ t, f x ≠ f a) := by
  rw [List.map_append, List.map_cons, List.nodup_append] at h
  obtain ⟨h1, h2, hdisj⟩ := h
  constructor
  · intro x hx hEq
    exact hdisj (List.mem_map.mpr ⟨x, hx, rfl⟩) (by rw [hEq]; exact List.mem_cons_self _ _)
  · intro x hx hEq
    rw [List.nodup_cons] at h2
    exact h2.1 (by rw [← hEq]; exact List.mem_map.mpr ⟨x, hx, rfl⟩)

/-- Processing a locale directory touches every not-yet-tracked, not-removed
key flattened from its files with the file's value at the current time. -/
theorem step3Dir_seeds (langs : List LanguageCode) (now : Nat) (removed : List String)
    (names : List String) (acc : State × Bool × Bool) (D : LocaleDir) (k v : String)
    (hkv : (k, v) ∈ names.flatMap (fun fn =>
      match D.files.find? (fun (f : SyncFile) => f.name == fn) with
      | none => []
      | some f => flattenFields (nsOf fn) "" f.content))
    (hnodupK : ((names.flatMap (fun fn =>
      match D.files.find? (fun (f : SyncFile) => f.name == fn) with
      | none => []
      | some f => flattenFields (nsOf fn) "" f.content)).map Prod.fst).Nodup)
    (hrem : removed.contains k = false)
    (hnone : metaOf acc.1 D.code k = none) :
    metaOf (step3Dir langs now removed names acc D).1 D.code k =
      some { lastModified := now, current := some v } := by
  obtain ⟨l1, l2, hsplitE⟩ := List.append_of_mem hkv
  rw [hsplitE] at hnodupK
  obtain ⟨hk1, hk2⟩ := nodup_split_ne Prod.fst l1 l2 (k, v) hnodupK
  have hchain : ∀ (ex : Bool) (st : State) (b : Bool), metaOf st D.code k = none →
      metaOf ((names.foldl (step3File langs D.code now removed ex D.files) (st, b))).1
          D.code k = some { lastModified := now, current := some v } := by
    intro ex st b hst
    rw [step3Files_eq_foldl_entries, hsplitE, List.foldl_append, List.foldl_cons]
    exact foldl_step3Entry_metaOf_value_frame langs D.code now removed ex k _ l2
      (fun kv' h' => hk2 kv' h') _
      (step3Entry_touch_at langs D.code now removed ex k v _ hrem
        (foldl_step3Entry_metaOf_value_frame langs D.code now removed ex k none l1
          (fun kv' h' => hk1 kv' h') (st, b) hst))
  unfold step3Dir
  dsimp only
  cases hex : (acc.1.locales.find? (fun loc => loc.code == D.code)).isSome with
  | true =>
      rw [if_pos rfl]
      exact hchain true acc.1 acc.2.1 hnone
  | false =>
      rw [if_neg (fun hc => Bool.false_ne_true hc)]
      cases hlang : langs.find? (fun l => l.code == D.code) with
      | none => exact hchain false acc.1 acc.2.1 hnone
      | some li =>
          have hfnone : acc.1.locales.find? (fun loc => loc.code == D.code) = none := by
            cases hff : acc.1.locales.find? (fun loc => loc.code == D.code) with
            | none => rfl
            | some e => rw [hff] at hex; simp at hex
          exact hchain false _ acc.2.1
            (metaOf_append_self_empty acc.1 D.code li.englishName li.localName k hfnone)

/-- C6 (amended): during a reconciler run, for each non-base locale directory,
every key flattened from that locale's own files (restricted to base file
names) that is not in the removed set and not yet tracked for that locale is
touched at the current time with the file's value recorded as `current` —
rather than base-locale keys being touched with no value, as the claim
states. -/
theorem syncState_locale_file_seeding (langs : List LanguageCode) (s : State)
    (baseFiles : List SyncFile) (dirs : List LocaleDir) (now : Nat)
    (D : LocaleDir) (k v : String)
    (hdirs : (dirs.map (fun d => d.code)).Nodup)
    (hD : D ∈ dirs) (hDbase : D.code ≠ s.baseLocale)
    (hkv : (k, v) ∈ dirProcessedEntries baseFiles D)
    (hnodupK : ((dirProcessedEntries baseFiles D).map Prod.fst).Nodup)
    (hrem : (syncRemovedKeys langs s baseFiles now).contains k = false)
    (hnone : metaOf s D.code k = none) :
    metaOf (syncStateModel langs s baseFiles dirs now).1 D.code k =
      some { lastModified := now, current := some v } := by
  unfold dirProcessedEntries at hkv hnodupK
  have h1 : metaOf (step1Result langs s baseFiles now).1 D.code k = none := by
    unfold step1Result
    rw [foldl_step1_metaOf_other_locale langs s.baseLocale now D.code k hDbase _ _]
    exact hnone
  have h2 : metaOf (step2Apply s.baseLocale (syncRemovedKeys langs s baseFiles now)
      (step1Result langs s baseFiles now).1) D.code k = none := by
    rw [metaOf_step2Apply_not_removed _ _ _ _ _ hrem]
    exact h1
  have hDfilter : D ∈ dirs.filter (fun d => d.code != s.baseLocale) :=
    List.mem_filter.mpr ⟨hD, by simpa using hDbase⟩
  obtain ⟨dA, dB, hsplit⟩ := List.append_of_mem hDfilter
  have hfilter_nodup : ((dirs.filter (fun d => d.code != s.baseLocale)).map
      (fun d => d.code)).Nodup :=
    ((List.filter_sublist dirs).map (fun d => d.code)).nodup hdirs
  rw [hsplit] at hfilter_nodup
  obtain ⟨hA, hB⟩ := nodup_split_ne (fun d => d.code) dA dB D hfilter_nodup
  unfold syncStateModel
  dsimp only
  rw [hsplit, List.foldl_append, List.foldl_cons]
  have hACC : metaOf ((dA.foldl
      (step3Dir langs now (syncRemovedKeys langs s baseFiles now)
        ((baseFiles.filter (fun f => strEndsWith f.name ".json")).map (fun f => f.name)))
      (step2Apply s.baseLocale (syncRemovedKeys langs s baseFiles now)
          (step1Result langs s baseFiles now).1,
        (step1Result langs s baseFiles now).2.1, false))).1 D.code k = none := by
    rw [foldl_step3Dir_metaOf_other langs now _ _ D.code k dA
      (fun d hd => Ne.symm (hA d hd)) _]
    exact h2
  have hstep := step3Dir_seeds langs now (syncRemovedKeys langs s baseFiles now)
    ((baseFiles.filter (fun f => strEndsWith f.name ".json")).map (fun f => f.name))
    _ D k v hkv hnodupK hrem hACC
  rw [foldl_step3Dir_metaOf_other langs now _ _ D.code k dB
    (fun d hd => Ne.symm (hB d hd)) _]
  exact hstep

/-- Fixture for C6: base locale "en" tracks `m.a`; locale "es" is tracked
with no keys; the base file still contains `m.a`. -/
def c6State : State :=
  { version := "0", baseLocale := "en", translationsPath := "translations",
    generateKeys := true,
    locales :=
      [{ code := "en", englishName := "English", localName := "English",
         keys := [("m.a", { lastModified := 1, current := some "x" })] },
       { code := "es", englishName := "Spanish", localName := "Español", keys := [] }] }

/-- Base files for C6. -/
def c6Files : List SyncFile :=
  [{ name := "m.json", content := TransFields.fcons "a" (TransVal.str "x") TransFields.nil }]

/-- Locale directories for the C6 counterexample: the "es" file exists but is
empty, so it contains no occurrence of the base key. -/
def c6Dirs : List LocaleDir :=
  [{ code := "es", files := [{ name := "m.json", content := TransFields.nil }] }]

/-- C6 counterexample: `m.a` is a base-locale key, absent from "es"'s
metadata and not in the removed set, yet after the run "es" still has no
metadata for it — the reconciler touches keys found in the locale's own
files, not base-locale keys, so nothing is marked as owed. -/
theorem syncState_seed_counterexample :
    c6State.baseLocale = "en" ∧
    (metaOf c6State "en" "m.a").isSome = true ∧
    metaOf c6State "es" "m.a" = none ∧
    syncRemovedKeys [] c6State c6Files 7 = [] ∧
    metaOf (syncStateModel [] c6State c6Files c6Dirs 7).1 "es" "m.a" = none := by
  decide

/-- Locale directories for the C6 witness: the "es" file does contain a value
for the key. -/
def c6DirsW : List LocaleDir :=
  [{ code := "es",
     files := [{ name := "m.json",
                 content := TransFields.fcons "a" (TransVal.str "hola") TransFields.nil }] }]

/-- Witness for C6 (amended): the key found in the "es" file is touched with
the file's value at the current time. -/
theorem syncState_locale_file_seeding_witness :
    metaOf (syncStateModel [] c6State c6Files c6DirsW 7).1 "es" "m.a" =
      some { lastModified := 7, current := some "hola" } :=
  syncState_locale_file_seeding [] c6State c6Files c6DirsW 7
    { code := "es",
      files := [{ name := "m.json",
                  content := TransFields.fcons "a" (TransVal.str "hola") TransFields.nil }] }
    "m.a" "hola" (by decide) (List.mem_singleton.mpr rfl) (by decide) (by decide)
    (by decide) (by decide) (by decide)

/-! ### The remote translation call (`translateViaCallOpenAi`, translate.ts) -/

/-- Outcome of the `fetch` / `response.json()` stage of
`translateViaCallOpenAi` as seen by its try block: the fetch may throw, the
response may be non-2xx, the body parse may throw, or a parsed response with
the listed choice message contents is obtained. -/
inductive RemoteOutcome where
  | netError (msg : String)
  | httpError (statusText : String)
  | badJson (msg : String)
  | success (choices : List String)
deriving Repr, DecidableEq

/-- The try block of `translateViaCallOpenAi` (translate.ts lines 651–679):
throws on a thrown fetch, a non-2xx response, a body-parse error, or zero
choices; otherwise `JSON.parse`s the first choice's message content (the
parser is abstracted by `parse`, itself fallible). -/
def translateTryBody (parse : String → Except String (List (String × String)))
    (outcome : RemoteOutcome) : Except String (List (String × String)) :=
  match outcome with
  | RemoteOutcome.netError msg => Except.error msg
  | RemoteOutcome.httpError statusText =>
      Except.error ("API request failed: " ++ statusText)
  | RemoteOutcome.badJson msg => Except.error msg
  | RemoteOutcome.success choices =>
      match choices with
      | [] => Except.error "AI was not able to analyse the text"
      | c :: _ => parse c

/-- `translateViaCallOpenAi`: the catch clause logs and folds every failure
of the try block into the empty map; the `Except`-valued result records that
no exception escapes the function. -/
def translateViaCallOpenAi (parse : String → Except String (List (String × String)))
    (outcome : RemoteOutcome) : Except String (List (String × String)) :=
  match translateTryBody parse outcome with
  | Except.ok m => Except.ok m
  | Except.error _ => Except.ok []

/-- The failure cases named by the claim: a non-2xx response, a thrown error
(network, body parse, or content parse), or a response with zero choices. -/
def chunkCallFails (parse : String → Except String (List (String × String)))
    (outcome : RemoteOutcome) : Prop :=
  match outcome with
  | RemoteOutcome.netError _ => True
  | RemoteOutcome.httpError _ => True
  | RemoteOutcome.badJson _ => True
  | RemoteOutcome.success choices =>
      choices = [] ∨ ∃ c rest msg, choices = c :: rest ∧ parse c = Except.error msg

/-- C8: a failed chunk call — non-2xx response, thrown error, or zero
choices — yields the empty translation map and never raises (the result is
always `ok`). -/
theorem translateViaCallOpenAi_failure_empty
    (parse : String → Except String (List (String × String))) (outcome : RemoteOutcome)
    (h : chunkCallFails parse outcome) :
    translateViaCallOpenAi parse outcome = Except.ok [] := by
  unfold translateViaCallOpenAi translateTryBody
  cases outcome with
  | netError msg => rfl
  | httpError statusText => rfl
  | badJson msg => rfl
  | success choices =>
      cases choices with
      | nil => rfl
      | cons c rest =>
          unfold chunkCallFails at h
          rcases h with h | ⟨c', rest', msg, hEq, hparse⟩
          · cases h
          · obtain ⟨rfl, rfl⟩ : c' = c ∧ rest' = rest := by
              refine ⟨?_, ?_⟩ <;> injection hEq <;> simp_all
            show (match parse c' with
              | Except.ok m => Except.ok m
              | Except.error _ => (Except.ok [] : Except String (List (String × String)))) =
              Except.ok []
            rw [hparse]

/-- Witness for C8 at a concrete failed call. -/
theorem translateViaCallOpenAi_failure_empty_witness :
    translateViaCallOpenAi (fun s => Except.ok [(s, s)])
      (RemoteOutcome.httpError "Bad Gateway") = Except.ok [] :=
  translateViaCallOpenAi_failure_empty (fun s => Except.ok [(s, s)])
    (RemoteOutcome.httpError "Bad Gateway") trivial

/-! ### The AI Translation Orchestrator's event trace

`saveAiTranslations` (index.ts) first awaits `translate` (translate.ts),
which touches State for the base keys and for every translated key and then
calls `saveState`; only afterwards does `saveAiTranslations` write the
translation files.  The observable effect order is modelled as a list of
events.  Target languages run under `Promise.all`; their touch events may
interleave, but all of them are awaited before `saveState`, which is the
ordering at issue, so the model serializes them in array order. -/

inductive Event where
  | touchEv (locale key : String)
  | saveStateEv
  | writeFileEv (languageCode fileName : String)
deriving Repr, DecidableEq

/-- `flattenKeys(content, namespace)` for a `GenericTranslations` value
(flat string map, per its declared type). -/
def flattenKeysFlat (m : List (String × String)) (ns : String) : List String :=
  m.map (fun kv => ns ++ "." ++ kv.1)

/-- `splitIntoChunks` builds the slices `[0,n), [n,2n), ...` of the key list;
the fuel (the list length) only bounds the recursion. -/
def splitIntoChunksAux (n : Nat) : Nat → List (String × String) → List (List (String × String))
  | 0, _ => []
  | _, [] => []
  | fuel + 1, l => l.take n :: splitIntoChunksAux n fuel (l.drop n)

/-- `splitIntoChunks` from translate.ts (always called with chunk size 100). -/
def splitIntoChunks (m : List (String × String)) (n : Nat) : List (List (String × String)) :=
  splitIntoChunksAux n m.length m

/-- JS object spread `{...a, ...b}`: keys of `a` in order with `b`'s values
winning on collision, then the new keys of `b` in order. -/
def mergeMaps (a b : List (String × String)) : List (String × String) :=
  a.map (fun kv =>
    match b.find? (fun kv' => kv'.1 == kv.1) with
    | some kv' => (kv.1, kv'.2)
    | none => kv) ++
  b.filter (fun kv' => (a.find? (fun kv => kv.1 == kv'.1)).isNone)

/-- `translateLanguage` (translate.ts lines 557–643): select the missing
set, translate it chunk by chunk through the collaborator `ai`, touch State
for every translated key, and return the merged file content.  Returns the
result together with the touch events it performs. -/
def translateLanguageEvents (ai : String → List (String × String) → List (String × String))
    (updateAll : Bool) (targetCode ns : String)
    (existingTranslations defaultLanguageContent : List (String × String)) :
    List (String × String) × List Event :=
  let missingTranslations :=
    if updateAll then defaultLanguageContent
    else defaultLanguageContent.filter
      (fun kv => (existingTranslations.find? (fun kv' => kv'.1 == kv.1)).isNone)
  if missingTranslations.isEmpty then (existingTranslations, [])
  else
    let chunks := splitIntoChunks missingTranslations 100
    let translatedContent := chunks.foldl (fun acc c => mergeMaps acc (ai targetCode c)) []
    (mergeMaps existingTranslations translatedContent,
      (flattenKeysFlat translatedContent ns).map (fun key => Event.touchEv targetCode key))

/-- The touch events of `performTranslations` (translate.ts lines 474–555):
per base file, the base-locale keys are touched (no value), then each target
language's `translateLanguage` contributes its touches. -/
def performTranslationsEvents (ai : String → List (String × String) → List (String × String))
    (updateAll : Bool) (defaultCode : String) (targets : List String)
    (files : List (String × List (String × String)))
    (existing : String → String → List (String × String)) : List Event :=
  files.flatMap (fun f =>
    ((flattenKeysFlat f.2 (nsOf f.1)).map (fun key => Event.touchEv defaultCode key)) ++
    targets.flatMap (fun t =>
      (translateLanguageEvents ai updateAll t (nsOf f.1) (existing t f.1) f.2).2))

/-- The write events of `saveAiTranslations` (index.ts lines 491–507): per
file, one `writeJSON` per language (the default language's content is
written back too). -/
def saveAiWriteEvents (defaultCode : String) (targets : List String)
    (files : List (String × List (String × String))) : List Event :=
  files.flatMap (fun f =>
    (defaultCode :: targets).map (fun lc => Event.writeFileEv lc f.1))

/-- The full observable event trace of one `saveAiTranslations` run:
`translate` touches and then persists State; the files are written only
afterwards. -/
def runEvents (ai : String → List (String × String) → List (String × String))
    (updateAll : Bool) (defaultCode : String) (targets : List String)
    (files : List (String × List (String × String)))
    (existing : String → String → List (String × String)) : List Event :=
  performTranslationsEvents ai updateAll defaultCode targets files existing ++
    Event.saveStateEv :: saveAiWriteEvents defaultCode targets files

/-- Transcription of the claim: a target-locale key is touched only after
that locale's translated file content has been written (some write for that
locale precedes the touch in the trace). -/
def writeThenTouchOrdering (defaultCode : String) (evs : List Event) : Prop :=
  ∀ i : Fin evs.length, ∀ L K, evs.get i = Event.touchEv L K → L ≠ defaultCode →
    ∃ m : Fin evs.length, m < i ∧ ∃ fn, evs.get m = Event.writeFileEv L fn

/-- The collaborator for the C1 counterexample: it translates every chunk
key to "Hola". -/
def c1ai : String → List (String × String) → List (String × String) :=
  fun _ chunk => chunk.map (fun kv => (kv.1, "Hola"))

/-- Base files for the C1 counterexample. -/
def c1files : List (String × List (String × String)) := [("main.json", [("hello", "Hello")])]

/-- Existing target translations for the C1 counterexample: none. -/
def c1existing : String → String → List (String × String) := fun _ _ => []

/-- C1 counterexample: in a concrete run the touch of ("es", "main.hello")
and the State save both precede the write of es/main.json, so the persisted
State carries a timestamp for a key whose value had not yet been written —
write-then-touch ordering fails. -/
theorem translate_write_then_touch_counterexample :
    runEvents c1ai false "en" ["es"] c1files c1existing =
      [Event.touchEv "en" "main.hello", Event.touchEv "es" "main.hello",
       Event.saveStateEv,
       Event.writeFileEv "en" "main.json", Event.writeFileEv "es" "main.json"] ∧
    ¬ writeThenTouchOrdering "en" (runEvents c1ai false "en" ["es"] c1files c1existing) := by
  have hEq : runEvents c1ai false "en" ["es"] c1files c1existing =
      [Event.touchEv "en" "main.hello", Event.touchEv "es" "main.hello",
       Event.saveStateEv,
       Event.writeFileEv "en" "main.json", Event.writeFileEv "es" "main.json"] := by
    decide
  refine ⟨hEq, ?_⟩
  intro h
  rw [hEq] at h
  unfold writeThenTouchOrdering at h
  obtain ⟨m, hm, fn, hw⟩ := h ⟨1, by decide⟩ "es" "main.hello" (by decide) (by decide)
  have h0 : m.1 = 0 := Nat.lt_one_iff.mp (Fin.lt_def.mp hm)
  have hget : ([Event.touchEv "en" "main.hello", Event.touchEv "es" "main.hello",
      Event.saveStateEv,
      Event.writeFileEv "en" "main.json", Event.writeFileEv "es" "main.json"].get m) =
      Event.touchEv "en" "main.hello" := by
    rw [show m = (⟨0, by decide⟩ : Fin 5) from Fin.ext h0]
    rfl
  rw [hget] at hw
  exact Event.noConfusion hw

/-- C1 (amended): the orchestrator touches State and persists it
(`saveState` inside `translate`) before any translated file is written by
`saveAiTranslations` — every event before the save is a touch and every
event after it is a file write: the reverse of write-then-touch. -/
theorem translate_touch_save_write_phases
    (ai : String → List (String × String) → List (String × String)) (updateAll : Bool)
    (defaultCode : String) (targets : List String)
    (files : List (String × List (String × String)))
    (existing : String → String → List (String × String)) :
    runEvents ai updateAll defaultCode targets files existing =
      performTranslationsEvents ai updateAll defaultCode targets files existing ++
        Event.saveStateEv :: saveAiWriteEvents defaultCode targets files ∧
    (∀ e ∈ performTranslationsEvents ai updateAll defaultCode targets files existing,
      ∃ L K, e = Event.touchEv L K) ∧
    (∀ e ∈ saveAiWriteEvents defaultCode targets files,
      ∃ L fn, e = Event.writeFileEv L fn) := by
  refine ⟨rfl, ?_, ?_⟩
  · intro e he
    unfold performTranslationsEvents at he
    obtain ⟨f, hf, he⟩ := List.mem_flatMap.mp he
    rcases List.mem_append.mp he with he | he
    · obtain ⟨key, _, rfl⟩ := List.mem_map.mp he
      exact ⟨defaultCode, key, rfl⟩
    · obtain ⟨t, ht, he⟩ := List.mem_flatMap.mp he
      unfold translateLanguageEvents at he
      dsimp only at he
      by_cases hc : (if updateAll then f.2 else f.2.filter
          (fun kv => ((existing t f.1).find? (fun kv' => kv'.1 == kv.1)).isNone)).isEmpty = true
      · rw [if_pos hc] at he
        simp at he
      · rw [if_neg hc] at he
        dsimp only at he
        obtain ⟨key, _, rfl⟩ := List.mem_map.mp he
        exact ⟨t, key, rfl⟩
  · intro e he
    unfold saveAiWriteEvents at he
    obtain ⟨f, hf, he⟩ := List.mem_flatMap.mp he
    obtain ⟨lc, _, rfl⟩ := List.mem_map.mp he
    exact ⟨lc, f.1, rfl⟩

/-- Witness for C1 (amended) at the concrete counterexample run. -/
theorem translate_touch_save_write_phases_witness :
    runEvents c1ai false "en" ["es"] c1files c1existing =
      performTranslationsEvents c1ai false "en" ["es"] c1files c1existing ++
        Event.saveStateEv :: saveAiWriteEvents "en" ["es"] c1files :=
  (translate_touch_save_write_phases c1ai false "en" ["es"] c1files c1existing).1

/-! ### Characterization of the reconciler's mutation flags (for the save
decision) -/

theorem step1Fold_newFlag_eval (langs : List LanguageCode) (baseLocale : String)
    (now : Nat) (acc : State × Bool × Bool) (kv : String × String) :
    (step1Fold langs baseLocale now acc kv).2.1 =
      match metaOf acc.1 baseLocale kv.1 with
      | none => true
      | some _ => acc.2.1 := by
  unfold step1Fold
  cases metaOf acc.1 baseLocale kv.1 with
  | none => rfl
  | some m =>
      show (if kv.2 ≠ "" ∧ m.current ≠ some kv.2 then
          (touch langs acc.1 baseLocale kv.1 now (some kv.2), acc.2.1, true) else acc).2.1 =
        acc.2.1
      by_cases h : kv.2 ≠ "" ∧ m.current ≠ some kv.2
      · rw [if_pos h]
      · rw [if_neg h]

theorem step1Fold_updFlag_eval (langs : List LanguageCode) (baseLocale : String)
    (now : Nat) (acc : State × Bool × Bool) (kv : String × String) :
    (step1Fold langs baseLocale now acc kv).2.2 =
      match metaOf acc.1 baseLocale kv.1 with
      | none => acc.2.2
      | some m => if kv.2 ≠ "" ∧ m.current ≠ some kv.2 then true else acc.2.2 := by
  unfold step1Fold
  cases metaOf acc.1 baseLocale kv.1 with
  | none => rfl
  | some m =>
      show (if kv.2 ≠ "" ∧ m.current ≠ some kv.2 then
          (touch langs acc.1 baseLocale kv.1 now (some kv.2), acc.2.1, true) else acc).2.2 =
        if kv.2 ≠ "" ∧ m.current ≠ some kv.2 then true else acc.2.2
      by_cases h : kv.2 ≠ "" ∧ m.current ≠ some kv.2
      · rw [if_pos h, if_pos h]
      · rw [if_neg h, if_neg h]

theorem isSome_ite_some (c : Prop) [Decidable c] (a b : KeyMeta) :
    ((if c then some a else some b : Option KeyMeta)).isSome = true := by
  split <;> rfl

theorem step1Fold_isSome_step (langs : List LanguageCode) (baseLocale : String)
    (now : Nat) (acc : State × Bool × Bool) (kv : String × String) (k' : String) :
    (metaOf (step1Fold langs baseLocale now acc kv).1 baseLocale k').isSome = true ↔
      (metaOf acc.1 baseLocale k').isSome = true ∨ k' = kv.1 := by
  rw [step1Fold_state_eval]
  by_cases hk : k' = kv.1
  · subst hk
    cases hmv : metaOf acc.1 baseLocale kv.1 with
    | none =>
        show (metaOf (touch langs acc.1 baseLocale kv.1 now (some kv.2))
          baseLocale kv.1).isSome = true ↔
          (none : Option KeyMeta).isSome = true ∨ kv.1 = kv.1
        rw [metaOf_touch_self, hmv]
        simp
    | some m =>
        show (metaOf (if kv.2 ≠ "" ∧ m.current ≠ some kv.2 then
            touch langs acc.1 baseLocale kv.1 now (some kv.2) else acc.1)
          baseLocale kv.1).isSome = true ↔
          (some m : Option KeyMeta).isSome = true ∨ kv.1 = kv.1
        by_cases hcond : kv.2 ≠ "" ∧ m.current ≠ some kv.2
        · rw [if_pos hcond, metaOf_touch_self, hmv]
          show ((if m.current ≠ some kv.2 then
              some { lastModified := now, current := some kv.2 } else some m)).isSome =
            true ↔ _
          rw [isSome_ite_some]
          simp
        · rw [if_neg hcond, hmv]
          simp
  · have hfr : baseLocale ≠ baseLocale ∨ k' ≠ kv.1 := Or.inr hk
    cases hmv : metaOf acc.1 baseLocale kv.1 with
    | none =>
        show (metaOf (touch langs acc.1 baseLocale kv.1 now (some kv.2))
          baseLocale k').isSome = true ↔
          (metaOf acc.1 baseLocale k').isSome = true ∨ k' = kv.1
        rw [metaOf_touch_frame langs acc.1 baseLocale kv.1 now (some kv.2) baseLocale k' hfr]
        simp [hk]
    | some m =>
        show (metaOf (if kv.2 ≠ "" ∧ m.current ≠ some kv.2 then
            touch langs acc.1 baseLocale kv.1 now (some kv.2) else acc.1)
          baseLocale k').isSome = true ↔
          (metaOf acc.1 baseLocale k').isSome = true ∨ k' = kv.1
        by_cases hcond : kv.2 ≠ "" ∧ m.current ≠ some kv.2
        · rw [if_pos hcond,
            metaOf_touch_frame langs acc.1 baseLocale kv.1 now (some kv.2) baseLocale k' hfr]
          simp [hk]
        · rw [if_neg hcond]
          simp [hk]

theorem foldl_step1_metaOf_isSome (langs : List LanguageCode) (baseLocale : String)
    (now : Nat) (k : String) (l : List (String × String)) :
    ∀ acc : State × Bool × Bool,
      (metaOf (l.foldl (step1Fold langs baseLocale now) acc).1 baseLocale k).isSome = true ↔
        (metaOf acc.1 baseLocale k).isSome = true ∨ k ∈ l.map Prod.fst := by
  induction l with
  | nil => intro acc; simp
  | cons kv rest ih =>
      intro acc
      rw [List.foldl_cons, ih, step1Fold_isSome_step]
      rw [List.map_cons, List.mem_cons, or_assoc]

theorem step1Fold_none_step (langs : List LanguageCode) (baseLocale : String)
    (now : Nat) (acc : State × Bool × Bool) (kv : String × String) (k' : String) :
    metaOf (step1Fold langs baseLocale now acc kv).1 baseLocale k' = none ↔
      metaOf acc.1 baseLocale k' = none ∧ k' ≠ kv.1 := by
  rw [← Option.not_isSome_iff_eq_none, step1Fold_isSome_step, not_or,
    Option.not_isSome_iff_eq_none]

theorem step1Fold_meta_pres_ne (langs : List LanguageCode) (baseLocale : String)
    (now : Nat) (acc : State × Bool × Bool) (kv : String × String) (k' : String)
    (hne : k' ≠ kv.1) :
    metaOf (step1Fold langs baseLocale now acc kv).1 baseLocale k' =
      metaOf acc.1 baseLocale k' := by
  rw [step1Fold_state_eval]
  have hfr : baseLocale ≠ baseLocale ∨ k' ≠ kv.1 := Or.inr hne
  cases hmv : metaOf acc.1 baseLocale kv.1 with
  | none => exact metaOf_touch_frame langs acc.1 baseLocale kv.1 now (some kv.2) baseLocale k' hfr
  | some m2 =>
      show metaOf (if kv.2 ≠ "" ∧ m2.current ≠ some kv.2 then
          touch langs acc.1 baseLocale kv.1 now (some kv.2) else acc.1) baseLocale k' = _
      by_cases hcond : kv.2 ≠ "" ∧ m2.current ≠ some kv.2
      · rw [if_pos hcond]
        exact metaOf_touch_frame langs acc.1 baseLocale kv.1 now (some kv.2) baseLocale k' hfr
      · rw [if_neg hcond]

theorem foldl_step1_newFlag (langs : List LanguageCode) (baseLocale : String)
    (now : Nat) (l : List (String × String)) :
    ∀ acc : State × Bool × Bool,
      ((l.foldl (step1Fold langs baseLocale now) acc).2.1 = true ↔
        acc.2.1 = true ∨ ∃ kv ∈ l, metaOf acc.1 baseLocale kv.1 = none) := by
  induction l with
  | nil => intro acc; simp
  | cons kv rest ih =>
      intro acc
      rw [List.foldl_cons, ih]
      cases hmv : metaOf acc.1 baseLocale kv.1 with
      | none =>
          have hflag : (step1Fold langs baseLocale now acc kv).2.1 = true := by
            rw [step1Fold_newFlag_eval, hmv]
          rw [hflag]
          constructor
          · intro _
            exact Or.inr ⟨kv, List.mem_cons_self kv rest, hmv⟩
          · intro _
            exact Or.inl rfl
      | some m =>
          have hflag : (step1Fold langs baseLocale now acc kv).2.1 = acc.2.1 := by
            rw [step1Fold_newFlag_eval, hmv]
          rw [hflag]
          constructor
          · rintro (h | ⟨kv', hkv', hnone⟩)
            · exact Or.inl h
            · have h2 := (step1Fold_none_step langs baseLocale now acc kv kv'.1).mp hnone
              exact Or.inr ⟨kv', List.mem_cons_of_mem kv hkv', h2.1⟩
          · rintro (h | ⟨kv', hkv', hnone⟩)
            · exact Or.inl h
            · rcases List.mem_cons.mp hkv' with rfl | hkv'
              · rw [hmv] at hnone
                cases hnone
              · by_cases hkk : kv'.1 = kv.1
                · rw [hkk, hmv] at hnone
                  cases hnone
                · refine Or.inr ⟨kv', hkv', ?_⟩
                  rw [step1Fold_none_step]
                  exact ⟨hnone, hkk⟩

theorem foldl_step1_updFlag (langs : List LanguageCode) (baseLocale : String)
    (now : Nat) (l : List (String × String)) :
    ∀ acc : State × Bool × Bool, (l.map Prod.fst).Nodup →
      ((l.foldl (step1Fold langs baseLocale now) acc).2.2 = true ↔
        acc.2.2 = true ∨ ∃ kv ∈ l, kv.2 ≠ "" ∧
          ∃ m, metaOf acc.1 baseLocale kv.1 = some m ∧ m.current ≠ some kv.2) := by
  induction l with
  | nil => intro acc _; simp
  | cons kv rest ih =>
      intro acc hnod
      rw [List.map_cons, List.nodup_cons] at hnod
      have hpres : ∀ kv' ∈ rest,
          metaOf (step1Fold langs baseLocale now acc kv).1 baseLocale kv'.1 =
            metaOf acc.1 baseLocale kv'.1 := by
        intro kv' hkv'
        exact step1Fold_meta_pres_ne langs baseLocale now acc kv kv'.1
          (fun hEq => hnod.1 (hEq ▸ List.mem_map.mpr ⟨kv', hkv', rfl⟩))
      rw [List.foldl_cons, ih _ hnod.2]
      cases hmv : metaOf acc.1 baseLocale kv.1 with
      | none =>
          have hflag : (step1Fold langs baseLocale now acc kv).2.2 = acc.2.2 := by
            rw [step1Fold_updFlag_eval, hmv]
          rw [hflag]
          constructor
          · rintro (h | ⟨kv', hkv', hv, m, hm, hc⟩)
            · exact Or.inl h
            · rw [hpres kv' hkv'] at hm
              exact Or.inr ⟨kv', List.mem_cons_of_mem kv hkv', hv, m, hm, hc⟩
          · rintro (h | ⟨kv', hkv', hv, m, hm, hc⟩)
            · exact Or.inl h
            · rcases List.mem_cons.mp hkv' with rfl | hkv'
              · rw [hmv] at hm
                cases hm
              · exact Or.inr ⟨kv', hkv', hv, m, by rw [hpres kv' hkv']; exact hm, hc⟩
      | some m =>
          by_cases hcond : kv.2 ≠ "" ∧ m.current ≠ some kv.2
          · have hflag : (step1Fold langs baseLocale now acc kv).2.2 = true := by
              rw [step1Fold_updFlag_eval, hmv]
              exact if_pos hcond
            rw [hflag]
            constructor
            · intro _
              exact Or.inr ⟨kv, List.mem_cons_self kv rest, hcond.1, m, hmv, hcond.2⟩
            · intro _
              exact Or.inl rfl
          · have hflag : (step1Fold langs baseLocale now acc kv).2.2 = acc.2.2 := by
              rw [step1Fold_updFlag_eval, hmv]
              exact if_neg hcond
            rw [hflag]
            constructor
            · rintro (h | ⟨kv', hkv', hv, m', hm', hc'⟩)
              · exact Or.inl h
              · rw [hpres kv' hkv'] at hm'
                exact Or.inr ⟨kv', List.mem_cons_of_mem kv hkv', hv, m', hm', hc'⟩
            · rintro (h | ⟨kv', hkv', hv, m', hm', hc'⟩)
              · exact Or.inl h
              · rcases List.mem_cons.mp hkv' with rfl | hkv'
                · rw [hmv] at hm'
                  have hmm : m = m' := by injection hm'
                  subst hmm
                  exact absurd ⟨hv, hc'⟩ hcond
                · exact Or.inr ⟨kv', hkv', hv, m',
                    by rw [hpres kv' hkv']; exact hm', hc'⟩

/-- A key is in the run's removed set iff it was tracked for the base locale
in the initial state and is absent from the base flatten result. -/
theorem syncRemovedKeys_iff (langs : List LanguageCode) (s : State)
    (baseFiles : List SyncFile) (now : Nat) (k : String) :
    k ∈ syncRemovedKeys langs s baseFiles now ↔
      (metaOf s s.baseLocale k).isSome = true ∧
        k ∉ (baseFlatEntries baseFiles).map Prod.fst := by
  unfold syncRemovedKeys step2Removed
  have hiso : (metaOf (step1Result langs s baseFiles now).1 s.baseLocale k).isSome = true ↔
      (metaOf s s.baseLocale k).isSome = true ∨ k ∈ (baseFlatEntries baseFiles).map Prod.fst := by
    unfold step1Result
    exact foldl_step1_metaOf_isSome langs s.baseLocale now k _ _
  cases hf : (step1Result langs s baseFiles now).1.locales.find?
      (fun loc => loc.code == s.baseLocale) with
  | none =>
      have hnone : (metaOf (step1Result langs s baseFiles now).1 s.baseLocale k).isSome =
          false := by
        unfold metaOf
        rw [hf]
        rfl
      constructor
      · intro h
        cases h
      · rintro ⟨hs, hnot⟩
        exfalso
        have := hiso.mpr (Or.inl hs)
        rw [hnone] at this
        cases this
  | some be =>
      have hmeta : metaOf (step1Result langs s baseFiles now).1 s.baseLocale k =
          lookupKey be.keys k := by
        unfold metaOf
        rw [hf]
        rfl
      rw [List.mem_filter]
      constructor
      · rintro ⟨hmem, hbool⟩
        have hnotfile : k ∉ (baseFlatEntries baseFiles).map Prod.fst := by
          simpa using hbool
        have hmem' : k ∈ be.keys.map Prod.fst := by
          obtain ⟨p, hp, hpk⟩ := List.mem_map.mp hmem
          exact List.mem_map.mpr ⟨p, hp, hpk⟩
        have hs1 : (metaOf (step1Result langs s baseFiles now).1 s.baseLocale k).isSome =
            true := by
          rw [hmeta]
          exact (lookupKey_isSome_iff_mem be.keys k).mpr hmem'
        have := hiso.mp hs1
        exact ⟨this.resolve_right hnotfile, hnotfile⟩
      · rintro ⟨hs, hnot⟩
        have hs1 : (metaOf (step1Result langs s baseFiles now).1 s.baseLocale k).isSome =
            true := hiso.mpr (Or.inl hs)
        rw [hmeta] at hs1
        refine ⟨(lookupKey_isSome_iff_mem be.keys k).mp hs1, ?_⟩
        simpa using hnot

theorem removed_nonempty_iff (langs : List LanguageCode) (s : State)
    (baseFiles : List SyncFile) (now : Nat) :
    (! (syncRemovedKeys langs s baseFiles now).isEmpty) = true ↔
      ∃ k, (metaOf s s.baseLocale k).isSome = true ∧
        k ∉ (baseFlatEntries baseFiles).map Prod.fst := by
  constructor
  · intro h
    have hne : syncRemovedKeys langs s baseFiles now ≠ [] := by
      intro hEq
      rw [hEq] at h
      cases h
    obtain ⟨k, hk⟩ := List.exists_mem_of_ne_nil _ hne
    exact ⟨k, (syncRemovedKeys_iff langs s baseFiles now k).mp hk⟩
  · rintro ⟨k, hk⟩
    have hmem : k ∈ syncRemovedKeys langs s baseFiles now :=
      (syncRemovedKeys_iff langs s baseFiles now k).mpr hk
    cases hl : syncRemovedKeys langs s baseFiles now with
    | nil => rw [hl] at hmem; cases hmem
    | cons a t => rfl

theorem find?_append_code_ne (l : List LocaleEntry) (x : LocaleEntry) (C : String)
    (hx : x.code ≠ C) :
    (l ++ [x]).find? (fun loc => loc.code == C) = l.find? (fun loc => loc.code == C) := by
  rw [List.find?_append]
  cases hf : l.find? (fun loc => loc.code == C) with
  | some e => rfl
  | none =>
      rw [Option.none_or, List.find?_cons]
      simp only [show (x.code == C) = false by simpa using hx]
      rfl

/-- `touch` for one locale leaves the `find?` result for any other code
unchanged (as a value, not merely in presence). -/
theorem touch_find?_code_other (langs : List LanguageCode) (s : State) (L K : String)
    (d : Nat) (c : Option String) (C : String) (hC : C ≠ L) :
    (touch langs s L K d c).locales.find? (fun loc => loc.code == C) =
      s.locales.find? (fun loc => loc.code == C) := by
  rcases touch_locales_cases langs s L K d c with
    ⟨hf, newE, hEq, hKeys, hCode⟩ | ⟨e, pre, post, hf, hl, hpre, hcode, hEq⟩
  · rw [hEq]
    exact find?_append_code_ne s.locales newE C (by rw [hCode]; exact Ne.symm hC)
  · rw [hEq]
    conv_rhs => rw [hl]
    rw [List.find?_append, List.find?_append]
    cases hp : pre.find? (fun loc => loc.code == C) with
    | some x => rfl
    | none =>
        rw [Option.none_or, Option.none_or, List.find?_cons, List.find?_cons]
        have hcodes : ((touchEntry K d c e).code == C) = (e.code == C) := by
          rw [(touchEntry_code K d c e).1]
        rw [hcodes]
        cases hec : (e.code == C) with
        | true =>
            exfalso
            exact hC (by rw [← hcode]; exact ((by simpa using hec : e.code = C)).symm ▸ rfl)
        | false => rfl

theorem step3Entry_find?_code_other (langs : List LanguageCode) (locale : String)
    (now : Nat) (removed : List String) (localeExisted : Bool) (acc : State × Bool)
    (kv : String × String) (C : String) (hC : C ≠ locale) :
    (step3Entry langs locale now removed localeExisted acc kv).1.locales.find?
        (fun loc => loc.code == C) =
      acc.1.locales.find? (fun loc => loc.code == C) := by
  unfold step3Entry
  split
  · rfl
  · cases hx : (if localeExisted then metaOf acc.1 locale kv.1 else none) with
    | none => exact touch_find?_code_other langs acc.1 locale kv.1 now (some kv.2) C hC
    | some m => rfl

theorem step3Dir_find?_code_other (langs : List LanguageCode) (now : Nat)
    (removed : List String) (names : List String) (acc : State × Bool × Bool)
    (dir : LocaleDir) (C : String) (hC : C ≠ dir.code) :
    (step3Dir langs now removed names acc dir).1.locales.find?
        (fun loc => loc.code == C) =
      acc.1.locales.find? (fun loc => loc.code == C) := by
  unfold step3Dir
  dsimp only
  have hfold : ∀ (ex : Bool) (st : State) (b : Bool),
      st.locales.find? (fun loc => loc.code == C) =
        acc.1.locales.find? (fun loc => loc.code == C) →
      ((names.foldl (step3File langs dir.code now removed ex dir.files)
          (st, b))).1.locales.find? (fun loc => loc.code == C) =
        acc.1.locales.find? (fun loc => loc.code == C) := by
    intro ex st b hst
    refine foldl_preserve _ (fun a => a.1.locales.find? (fun loc => loc.code == C) =
      acc.1.locales.find? (fun loc => loc.code == C)) names ?_ (st, b) hst
    intro a fn _ hP
    unfold step3File
    cases dir.files.find? (fun f => f.name == fn) with
    | none => exact hP
    | some f =>
        refine foldl_preserve _ (fun a => a.1.locales.find? (fun loc => loc.code == C) =
          acc.1.locales.find? (fun loc => loc.code == C)) _ ?_ a hP
        intro a' kv _ hP'
        rw [step3Entry_find?_code_other langs dir.code now removed ex a' kv C hC]
        exact hP'
  cases hex : (acc.1.locales.find? (fun loc => loc.code == dir.code)).isSome with
  | true =>
      rw [if_pos rfl]
      exact hfold true acc.1 acc.2.1 rfl
  | false =>
      rw [if_neg (fun hc => Bool.false_ne_true hc)]
      cases hlang : langs.find? (fun l => l.code == dir.code) with
      | none => exact hfold false acc.1 acc.2.1 rfl
      | some li =>
          exact hfold false _ acc.2.1
            (find?_append_code_ne acc.1.locales _ C (Ne.symm hC))

/-- The `hasNewLanguages` flag after the directory loop: set iff the flag was
already set or some processed directory's code was untracked at its turn. -/
theorem foldl_step3Dir_langFlag (langs : List LanguageCode) (now : Nat)
    (removed : List String) (names : List String) (ds : List LocaleDir) :
    ∀ acc : State × Bool × Bool, (ds.map (fun d => d.code)).Nodup →
      ((ds.foldl (step3Dir langs now removed names) acc).2.2 = true ↔
        acc.2.2 = true ∨ ∃ d ∈ ds,
          acc.1.locales.find? (fun loc => loc.code == d.code) = none) := by
  induction ds with
  | nil => intro acc _; simp
  | cons d rest ih =>
      intro acc hnod
      rw [List.map_cons, List.nodup_cons] at hnod
      have hpres : ∀ d' ∈ rest,
          (step3Dir langs now removed names acc d).1.locales.find?
              (fun loc => loc.code == d'.code) =
            acc.1.locales.find? (fun loc => loc.code == d'.code) := by
        intro d' hd'
        exact step3Dir_find?_code_other langs now removed names acc d d'.code
          (fun hEq => hnod.1 (hEq ▸ List.mem_map.mpr ⟨d', hd', rfl⟩))
      rw [List.foldl_cons, ih _ hnod.2]
      have hflag : (step3Dir langs now removed names acc d).2.2 =
          (if (acc.1.locales.find? (fun loc => loc.code == d.code)).isSome = true
            then acc.2.2 else true) := by
        unfold step3Dir
        dsimp only
        cases hex : (acc.1.locales.find? (fun loc => loc.code == d.code)).isSome with
        | true => rw [if_pos rfl, if_pos rfl]
        | false =>
            rw [if_neg (fun hc => Bool.false_ne_true hc),
              if_neg (fun hc => Bool.false_ne_true hc)]
            cases langs.find? (fun l => l.code == d.code) <;> rfl
      rw [hflag]
      cases hex : (acc.1.locales.find? (fun loc => loc.code == d.code)) with
      | none =>
          rw [if_neg (by simp)]
          constructor
          · intro _
            exact Or.inr ⟨d, List.mem_cons_self d rest, hex⟩
          · intro _
            exact Or.inl rfl
      | some e =>
          rw [if_pos (show (Option.some e).isSome = true from rfl)]
          constructor
          · rintro (h | ⟨d', hd', hn⟩)
            · exact Or.inl h
            · rw [hpres d' hd'] at hn
              exact Or.inr ⟨d', List.mem_cons_of_mem d hd', hn⟩
          · rintro (h | ⟨d', hd', hn⟩)
            · exact Or.inl h
            · rcases List.mem_cons.mp hd' with rfl | hd'
              · rw [hex] at hn
                cases hn
              · exact Or.inr ⟨d', hd', by rw [hpres d' hd']; exact hn⟩

theorem foldl_step3Entry_newFlag (langs : List LanguageCode) (locale : String)
    (now : Nat) (removed : List String) (ex : Bool) (l : List (String × String)) :
    ∀ acc : State × Bool,
      ((l.foldl (step3Entry langs locale now removed ex) acc).2 = true ↔
        acc.2 = true ∨ ∃ kv ∈ l, removed.contains kv.1 = false ∧
          (if ex = true then metaOf acc.1 locale kv.1 else none) = none) := by
  induction l with
  | nil => intro acc; simp
  | cons kv rest ih =>
      intro acc
      rw [List.foldl_cons, ih]
      by_cases hrem : removed.contains kv.1 = true
      · have hstep : step3Entry langs locale now removed ex acc kv = acc := by
          unfold step3Entry
          rw [if_pos hrem]
        rw [hstep]
        constructor
        · rintro (h | ⟨kv', hkv', hcf, hn⟩)
          · exact Or.inl h
          · exact Or.inr ⟨kv', List.mem_cons_of_mem kv hkv', hcf, hn⟩
        · rintro (h | ⟨kv', hkv', hcf, hn⟩)
          · exact Or.inl h
          · rcases List.mem_cons.mp hkv' with rfl | hkv'
            · rw [hrem] at hcf
              cases hcf
            · exact Or.inr ⟨kv', hkv', hcf, hn⟩
      · have hremf : removed.contains kv.1 = false := by
          cases hcc : removed.contains kv.1 with
          | true => exact absurd hcc hrem
          | false => rfl
        cases hscrut : (if ex = true then metaOf acc.1 locale kv.1 else none) with
        | none =>
            have hstep2 : (step3Entry langs locale now removed ex acc kv).2 = true := by
              unfold step3Entry
              rw [if_neg hrem, hscrut]
            constructor
            · intro _
              exact Or.inr ⟨kv, List.mem_cons_self kv rest, hremf, hscrut⟩
            · intro _
              exact Or.inl hstep2
        | some m =>
            have hstep : step3Entry langs locale now removed ex acc kv = acc := by
              unfold step3Entry
              rw [if_neg hrem, hscrut]
            rw [hstep]
            constructor
            · rintro (h | ⟨kv', hkv', hcf, hn⟩)
              · exact Or.inl h
              · exact Or.inr ⟨kv', List.mem_cons_of_mem kv hkv', hcf, hn⟩
            · rintro (h | ⟨kv', hkv', hcf, hn⟩)
              · exact Or.inl h
              · rcases List.mem_cons.mp hkv' with rfl | hkv'
                · rw [hscrut] at hn
                  cases hn
                · exact Or.inr ⟨kv', hkv', hcf, hn⟩

theorem step3Dir_newFlag_iff (langs : List LanguageCode) (now : Nat)
    (removed : List String) (names : List String) (acc : State × Bool × Bool)
    (dir : LocaleDir) :
    ((step3Dir langs now removed names acc dir).2.1 = true ↔
      acc.2.1 = true ∨ ∃ kv ∈ (names.flatMap (fun fn =>
        match dir.files.find? (fun (f : SyncFile) => f.name == fn) with
        | none => []
        | some f => flattenFields (nsOf fn) "" f.content)),
        removed.contains kv.1 = false ∧ metaOf acc.1 dir.code kv.1 = none) := by
  unfold step3Dir
  dsimp only
  cases hex : (acc.1.locales.find? (fun loc => loc.code == dir.code)).isSome with
  | true =>
      rw [if_pos rfl]
      rw [step3Files_eq_foldl_entries, foldl_step3Entry_newFlag]
      simp
  | false =>
      rw [if_neg (fun hc => Bool.false_ne_true hc)]
      have hfnone : acc.1.locales.find? (fun loc => loc.code == dir.code) = none := by
        cases hff : acc.1.locales.find? (fun loc => loc.code == dir.code) with
        | none => rfl
        | some e => rw [hff] at hex; simp at hex
      have hmall : ∀ k, metaOf acc.1 dir.code k = none := by
        intro k
        unfold metaOf
        rw [hfnone]
        rfl
      cases hlang : langs.find? (fun l => l.code == dir.code) with
      | none =>
          rw [step3Files_eq_foldl_entries, foldl_step3Entry_newFlag]
          simp [hmall]
      | some li =>
          rw [step3Files_eq_foldl_entries, foldl_step3Entry_newFlag]
          simp [hmall]

theorem foldl_step3Dir_newFlag (langs : List LanguageCode) (now : Nat)
    (removed : List String) (names : List String) (ds : List LocaleDir) :
    ∀ acc : State × Bool × Bool, (ds.map (fun d => d.code)).Nodup →
      ((ds.foldl (step3Dir langs now removed names) acc).2.1 = true ↔
        acc.2.1 = true ∨ ∃ d ∈ ds, ∃ kv ∈ (names.flatMap (fun fn =>
          match d.files.find? (fun (f : SyncFile) => f.name == fn) with
          | none => []
          | some f => flattenFields (nsOf fn) "" f.content)),
          removed.contains kv.1 = false ∧ metaOf acc.1 d.code kv.1 = none) := by
  induction ds with
  | nil => intro acc _; simp
  | cons d rest ih =>
      intro acc hnod
      rw [List.map_cons, List.nodup_cons] at hnod
      have hpres : ∀ d' ∈ rest, ∀ k,
          metaOf (step3Dir langs now removed names acc d).1 d'.code k =
            metaOf acc.1 d'.code k := by
        intro d' hd' k
        exact step3Dir_metaOf_other langs now removed names acc d d'.code k
          (fun hEq => hnod.1 (hEq ▸ List.mem_map.mpr ⟨d', hd', rfl⟩))
      rw [List.foldl_cons, ih _ hnod.2, step3Dir_newFlag_iff]
      constructor
      · rintro ((h | ⟨kv, hkv, hcf, hn⟩) | ⟨d', hd', kv, hkv, hcf, hn⟩)
        · exact Or.inl h
        · exact Or.inr ⟨d, List.mem_cons_self d rest, kv, hkv, hcf, hn⟩
        · rw [hpres d' hd' kv.1] at hn
          exact Or.inr ⟨d', List.mem_cons_of_mem d hd', kv, hkv, hcf, hn⟩
      · rintro (h | ⟨d', hd', kv, hkv, hcf, hn⟩)
        · exact Or.inl (Or.inl h)
        · rcases List.mem_cons.mp hd' with rfl | hd'
          · exact Or.inl (Or.inr ⟨kv, hkv, hcf, hn⟩)
          · exact Or.inr ⟨d', hd', kv, hkv, hcf,
              by rw [hpres d' hd' kv.1]; exact hn⟩

theorem foldl_step1_find?_code_other (langs : List LanguageCode) (baseLocale : String)
    (now : Nat) (C : String) (hC : C ≠ baseLocale) (l : List (String × String))
    (acc : State × Bool × Bool) :
    (l.foldl (step1Fold langs baseLocale now) acc).1.locales.find?
        (fun loc => loc.code == C) =
      acc.1.locales.find? (fun loc => loc.code == C) := by
  refine foldl_preserve _ (fun a => a.1.locales.find? (fun loc => loc.code == C) =
    acc.1.locales.find? (fun loc => loc.code == C)) l ?_ acc rfl
  intro a kv _ hP
  rw [step1Fold_state_eval]
  cases hmv : metaOf a.1 baseLocale kv.1 with
  | none =>
      rw [touch_find?_code_other langs a.1 baseLocale kv.1 now (some kv.2) C hC]
      exact hP
  | some m2 =>
      show (if kv.2 ≠ "" ∧ m2.current ≠ some kv.2 then
          touch langs a.1 baseLocale kv.1 now (some kv.2) else a.1).locales.find?
          (fun loc => loc.code == C) = _
      by_cases hcond : kv.2 ≠ "" ∧ m2.current ≠ some kv.2
      · rw [if_pos hcond,
          touch_find?_code_other langs a.1 baseLocale kv.1 now (some kv.2) C hC]
        exact hP
      · rw [if_neg hcond]
        exact hP

theorem deleteRemovedLocales_find?_isSome (baseLocale : String) (removed : List String)
    (C : String) :
    ∀ (l : List LocaleEntry) (flag : Bool),
      ((deleteRemovedLocales baseLocale removed l flag).find?
        (fun loc => loc.code == C)).isSome =
      (l.find? (fun loc => loc.code == C)).isSome := by
  intro l
  induction l with
  | nil => intro flag; rfl
  | cons e rest ih =>
      intro flag
      unfold deleteRemovedLocales
      have hstripcode : ((stripKeys removed e).code == C) = (e.code == C) := by
        rw [stripKeys_code]
      by_cases he : e.code = baseLocale
      · rw [if_pos (by simpa using he)]
        cases flag with
        | true =>
            rw [if_pos (show (true : Bool) = true from rfl)]
            rw [List.find?_cons, List.find?_cons, hstripcode]
            cases hc : (e.code == C) with
            | true => rfl
            | false => exact ih false
        | false =>
            rw [if_neg (show ¬((false : Bool) = true) from Bool.false_ne_true)]
            rw [List.find?_cons, List.find?_cons]
            cases hc : (e.code == C) with
            | true => rfl
            | false => exact ih false
      · rw [if_neg (by simpa using he)]
        rw [List.find?_cons, List.find?_cons, hstripcode]
        cases hc : (e.code == C) with
        | true => rfl
        | false => exact ih flag

theorem step2Apply_find?_none_iff (baseLocale : String) (removed : List String)
    (s : State) (C : String) :
    ((step2Apply baseLocale removed s).locales.find? (fun loc => loc.code == C) = none) ↔
      (s.locales.find? (fun loc => loc.code == C) = none) := by
  unfold step2Apply
  dsimp only
  rw [← Option.not_isSome_iff_eq_none, ← Option.not_isSome_iff_eq_none,
    deleteRemovedLocales_find?_isSome]

/-- C9 mutation kind: a base-locale file key untracked in the initial state. -/
def specNewBaseKey (s : State) (baseFiles : List SyncFile) : Prop :=
  ∃ kv ∈ baseFlatEntries baseFiles, metaOf s s.baseLocale kv.1 = none

/-- C9 mutation kind: a tracked base-locale key whose file value is truthy
and differs from the stored current value. -/
def specUpdatedBaseKey (s : State) (baseFiles : List SyncFile) : Prop :=
  ∃ kv ∈ baseFlatEntries baseFiles, kv.2 ≠ "" ∧
    ∃ m, metaOf s s.baseLocale kv.1 = some m ∧ m.current ≠ some kv.2

/-- C9 mutation kind: a tracked base-locale key absent from the base files. -/
def specRemovedKey (s : State) (baseFiles : List SyncFile) : Prop :=
  ∃ k, (metaOf s s.baseLocale k).isSome = true ∧
    k ∉ (baseFlatEntries baseFiles).map Prod.fst

/-- C9 mutation kind: a non-base locale directory whose code the initial
state does not track. -/
def specNewLocale (s : State) (dirs : List LocaleDir) : Prop :=
  ∃ D ∈ dirs, D.code ≠ s.baseLocale ∧
    s.locales.find? (fun loc => loc.code == D.code) = none

/-- C9 mutation kind: a key of a non-base locale's files, outside the removed
set, that the initial state does not track for that locale. -/
def specNewLocaleKey (langs : List LanguageCode) (s : State) (baseFiles : List SyncFile)
    (dirs : List LocaleDir) (now : Nat) : Prop :=
  ∃ D ∈ dirs, D.code ≠ s.baseLocale ∧ ∃ kv ∈ dirProcessedEntries baseFiles D,
    (syncRemovedKeys langs s baseFiles now).contains kv.1 = false ∧
    metaOf s D.code kv.1 = none

set_option maxHeartbeats 2000000 in
/-- C9: a reconciler run saves the State document iff it produced a mutation:
a new key (in the base locale or in a target locale), an updated base key
value, a removed key, or a newly discovered locale. -/
theorem syncState_save_iff_mutation (langs : List LanguageCode) (s : State)
    (baseFiles : List SyncFile) (dirs : List LocaleDir) (now : Nat)
    (hnodupB : ((baseFlatEntries baseFiles).map Prod.fst).Nodup)
    (hnodupD : (dirs.map (fun d => d.code)).Nodup) :
    ((syncStateModel langs s baseFiles dirs now).2 = true) ↔
      (specNewBaseKey s baseFiles ∨ specNewLocaleKey langs s baseFiles dirs now) ∨
        specUpdatedBaseKey s baseFiles ∨ specRemovedKey s baseFiles ∨
        specNewLocale s dirs := by
  have hAllNodup : ((dirs.filter (fun d => d.code != s.baseLocale)).map
      (fun d => d.code)).Nodup :=
    ((List.filter_sublist dirs).map (fun d => d.code)).nodup hnodupD
  have hNew : ((dirs.filter (fun d => d.code != s.baseLocale)).foldl
      (step3Dir langs now (syncRemovedKeys langs s baseFiles now)
        ((baseFiles.filter (fun f => strEndsWith f.name ".json")).map (fun f => f.name)))
      (step2Apply s.baseLocale (syncRemovedKeys langs s baseFiles now)
          (step1Result langs s baseFiles now).1,
        (step1Result langs s baseFiles now).2.1, false)).2.1 = true ↔
      ((step1Result langs s baseFiles now).2.1 = true ∨
        specNewLocaleKey langs s baseFiles dirs now) := by
    rw [foldl_step3Dir_newFlag langs now _ _ _ _ hAllNodup]
    apply or_congr Iff.rfl
    unfold specNewLocaleKey
    constructor
    · rintro ⟨d, hd, kv, hkv, hcf, hn⟩
      have hdmem := List.mem_filter.mp hd
      have hdne : d.code ≠ s.baseLocale := by simpa using hdmem.2
      refine ⟨d, hdmem.1, hdne, kv, hkv, hcf, ?_⟩
      rw [metaOf_step2Apply_not_removed _ _ _ _ _ hcf] at hn
      unfold step1Result at hn
      rw [foldl_step1_metaOf_other_locale langs s.baseLocale now d.code kv.1 hdne _ _] at hn
      exact hn
    · rintro ⟨d, hd, hdne, kv, hkv, hcf, hn⟩
      refine ⟨d, List.mem_filter.mpr ⟨hd, by simpa using hdne⟩, kv, hkv, hcf, ?_⟩
      rw [metaOf_step2Apply_not_removed _ _ _ _ _ hcf]
      unfold step1Result
      rw [foldl_step1_metaOf_other_locale langs s.baseLocale now d.code kv.1 hdne _ _]
      exact hn
  have hLang : ((dirs.filter (fun d => d.code != s.baseLocale)).foldl
      (step3Dir langs now (syncRemovedKeys langs s baseFiles now)
        ((baseFiles.filter (fun f => strEndsWith f.name ".json")).map (fun f => f.name)))
      (step2Apply s.baseLocale (syncRemovedKeys langs s baseFiles now)
          (step1Result langs s baseFiles now).1,
        (step1Result langs s baseFiles now).2.1, false)).2.2 = true ↔
      specNewLocale s dirs := by
    rw [foldl_step3Dir_langFlag langs now _ _ _ _ hAllNodup]
    unfold specNewLocale
    constructor
    · rintro (h | ⟨d, hd, hn⟩)
      · cases h
      · have hdmem := List.mem_filter.mp hd
        have hdne : d.code ≠ s.baseLocale := by simpa using hdmem.2
        refine ⟨d, hdmem.1, hdne, ?_⟩
        rw [step2Apply_find?_none_iff] at hn
        unfold step1Result at hn
        rw [foldl_step1_find?_code_other langs s.baseLocale now d.code hdne _ _] at hn
        exact hn
    · rintro ⟨d, hd, hdne, hn⟩
      refine Or.inr ⟨d, List.mem_filter.mpr ⟨hd, by simpa using hdne⟩, ?_⟩
      rw [step2Apply_find?_none_iff]
      unfold step1Result
      rw [foldl_step1_find?_code_other langs s.baseLocale now d.code hdne _ _]
      exact hn
  have hNew1 : (step1Result langs s baseFiles now).2.1 = true ↔
      specNewBaseKey s baseFiles := by
    unfold step1Result
    rw [foldl_step1_newFlag]
    unfold specNewBaseKey
    constructor
    · rintro (h | h)
      · cases h
      · exact h
    · intro h
      exact Or.inr h
  have hUpd : (step1Result langs s baseFiles now).2.2 = true ↔
      specUpdatedBaseKey s baseFiles := by
    unfold step1Result
    rw [foldl_step1_updFlag langs s.baseLocale now _ _ hnodupB]
    unfold specUpdatedBaseKey
    constructor
    · rintro (h | h)
      · cases h
      · exact h
    · intro h
      exact Or.inr h
  have hRem : (! (syncRemovedKeys langs s baseFiles now).isEmpty) = true ↔
      specRemovedKey s baseFiles := by
    rw [removed_nonempty_iff]
    unfold specRemovedKey
    exact Iff.rfl
  unfold syncStateModel
  dsimp only
  rw [Bool.or_eq_true, Bool.or_eq_true, Bool.or_eq_true, hNew, hLang, hUpd, hRem, hNew1]
  tauto

/-- Witness for C9: the run that drops `m.obsolete` performs a removal
mutation, so it saves. -/
theorem syncState_save_iff_mutation_witness :
    (syncStateModel [] c4State c4Files c4Dirs 9).2 = true :=
  (syncState_save_iff_mutation [] c4State c4Files c4Dirs 9 (by decide) (by decide)).mpr
    (Or.inr (Or.inr (Or.inl ⟨"m.obsolete", by decide, by decide⟩)))

end OneKey
